import Mathlib

/-!
# Verification of the Avro/attrs bridge (openedx-events)

A shallow embedding of `openedx_events/avro_attrs_bridge.py`: the schema
derivation engine (`_get_object_fields`, `_record_fields_for_attrs_class`),
the marshaller (`attr.asdict` with `_extension_serializer`), and the
reconciler (`dict_to_attrs`, `dict_to_signal`), together with theorems about
round-tripping, schema-evolution behaviour, the nullable-default policy,
record-name deduplication and the error paths.

Record types (attrs classes) are modelled as finite trees: an attrs class is
a name together with an ordered list of attributes, each attribute carrying a
name, a declared type and an optional default value (`attr.NOTHING` is
modelled as `VOpt.noval`).  Python values are modelled by `Value`; native
attrs instances are `Value.vinst`, decoded wire mappings are `Value.vmap`.
The extension registry (`self.extensions`) is a function from type identities
to extension bundles.
-/

namespace AvroBridge

/-- Primitive python types appearing in the primitive type catalog. -/
inductive PrimTy where
  | str
  | int
  | float
  | bool
  | bytes
  | noneType
deriving DecidableEq, Repr

/-- Container python types; present in the catalog only to be rejected. -/
inductive ContainerTy where
  | list
  | dict
deriving DecidableEq, Repr

/-- Error outcomes of the bridge.  The source raises plain `Exception` /
`TypeError`; each raise site (and each failure of the attrs-generated
constructor) gets its own constructor here. -/
inductive BErr where
  /-- `_get_object_fields` raise site for a type that is neither
  extension-backed, in the catalog, nor an attrs class (line 187). -/
  | unsupportedType
  /-- `_get_object_fields` raise site for a catalog container kind
  ("item type for container object not specified", line 162). -/
  | containerError
  /-- `dict_to_attrs` raise site for an undeserializable field type
  ("Unable to deserialize ...", line 366). -/
  | deserUnsupportedType
  /-- `dict_to_attrs` raise site "Necessary key: ... not found in data dict"
  (line 362). -/
  | necessaryKeyNotFound
  /-- The attrs-generated constructor is called with a required parameter
  absent (Python `TypeError: missing ... required ... argument`). -/
  | missingRequiredField
  /-- The attrs-generated constructor is called with an argument that is not
  a declared attribute (Python `TypeError: unexpected keyword argument`). -/
  | unexpectedKeyword
  /-- A value of the wrong shape reaches code that needs a mapping
  (Python `TypeError` from iteration / `**` unpacking). -/
  | typeError
  /-- The interactive `breakpoint()` left on the unmatched-type path of
  `dict_to_signal` (line 336), modelled as a fatal outcome. -/
  | breakpointHit
deriving DecidableEq, Repr

mutual
/-- A field type identity (`attribute.type`): a catalog primitive, a catalog
container, a custom type (extension-backed or unsupported), or another attrs
class. -/
inductive Ty where
  | prim (p : PrimTy)
  | containerT (c : ContainerTy)
  | ext (name : String)
  | attrsC (c : AttrsCls)

/-- An attrs class object: `__name__` and `__attrs_attrs__`. -/
inductive AttrsCls where
  | mk (name : String) (attribs : AList)

/-- The ordered attribute list `__attrs_attrs__`. -/
inductive AList where
  | nil
  | cons (a : Attrib) (rest : AList)

/-- One `attr.Attribute`: name, declared type, and default. -/
inductive Attrib where
  | mk (name : String) (type : Ty) (dflt : VOpt)

/-- `attribute.default`: either `attr.NOTHING` or a concrete value. -/
inductive VOpt where
  | noval
  | val (v : Value)

/-- A python value: primitives, dicts (wire mappings), attrs instances and
instances of custom (extension) types.  Floats are opaque tokens (the bridge
never inspects them); bytes are byte lists. -/
inductive Value where
  | vnull
  | vstr (s : String)
  | vint (n : Int)
  | vfloat (lit : String)
  | vbool (b : Bool)
  | vbytes (bs : List Nat)
  | vmap (fs : Fields)
  | vinst (cls : AttrsCls) (fs : Fields)
  | vext (tyName : String) (payload : Value)

/-- An ordered association of field names to values (a python dict in
insertion order, or the attribute store of an instance). -/
inductive Fields where
  | nil
  | cons (name : String) (v : Value) (rest : Fields)
end

mutual
/-- Decidable equality for the value/type mutual family. -/
def Ty.deq : (a b : Ty) → Decidable (a = b)
  | .prim p, .prim q =>
      match decEq p q with
      | isTrue h => isTrue (by rw [h])
      | isFalse h => isFalse (by intro hc; cases hc; exact h rfl)
  | .prim _, .containerT _ => isFalse (by intro h; cases h)
  | .prim _, .ext _ => isFalse (by intro h; cases h)
  | .prim _, .attrsC _ => isFalse (by intro h; cases h)
  | .containerT _, .prim _ => isFalse (by intro h; cases h)
  | .containerT c, .containerT d =>
      match decEq c d with
      | isTrue h => isTrue (by rw [h])
      | isFalse h => isFalse (by intro hc; cases hc; exact h rfl)
  | .containerT _, .ext _ => isFalse (by intro h; cases h)
  | .containerT _, .attrsC _ => isFalse (by intro h; cases h)
  | .ext _, .prim _ => isFalse (by intro h; cases h)
  | .ext _, .containerT _ => isFalse (by intro h; cases h)
  | .ext n, .ext m =>
      match decEq n m with
      | isTrue h => isTrue (by rw [h])
      | isFalse h => isFalse (by intro hc; cases hc; exact h rfl)
  | .ext _, .attrsC _ => isFalse (by intro h; cases h)
  | .attrsC _, .prim _ => isFalse (by intro h; cases h)
  | .attrsC _, .containerT _ => isFalse (by intro h; cases h)
  | .attrsC _, .ext _ => isFalse (by intro h; cases h)
  | .attrsC c, .attrsC d =>
      match AttrsCls.deq c d with
      | isTrue h => isTrue (by rw [h])
      | isFalse h => isFalse (by intro hc; cases hc; exact h rfl)

def AttrsCls.deq : (a b : AttrsCls) → Decidable (a = b)
  | .mk n as, .mk m bs =>
      match decEq n m, AList.deq as bs with
      | isTrue h1, isTrue h2 => isTrue (by rw [h1, h2])
      | isFalse h1, _ => isFalse (by intro hc; cases hc; exact h1 rfl)
      | _, isFalse h2 => isFalse (by intro hc; cases hc; exact h2 rfl)

def AList.deq : (a b : AList) → Decidable (a = b)
  | .nil, .nil => isTrue rfl
  | .nil, .cons _ _ => isFalse (by intro h; cases h)
  | .cons _ _, .nil => isFalse (by intro h; cases h)
  | .cons a as, .cons b bs =>
      match Attrib.deq a b, AList.deq as bs with
      | isTrue h1, isTrue h2 => isTrue (by rw [h1, h2])
      | isFalse h1, _ => isFalse (by intro hc; cases hc; exact h1 rfl)
      | _, isFalse h2 => isFalse (by intro hc; cases hc; exact h2 rfl)

def Attrib.deq : (a b : Attrib) → Decidable (a = b)
  | .mk n t d, .mk m u e =>
      match decEq n m, Ty.deq t u, VOpt.deq d e with
      | isTrue h1, isTrue h2, isTrue h3 => isTrue (by rw [h1, h2, h3])
      | isFalse h1, _, _ => isFalse (by intro hc; cases hc; exact h1 rfl)
      | _, isFalse h2, _ => isFalse (by intro hc; cases hc; exact h2 rfl)
      | _, _, isFalse h3 => isFalse (by intro hc; cases hc; exact h3 rfl)

def VOpt.deq : (a b : VOpt) → Decidable (a = b)
  | .noval, .noval => isTrue rfl
  | .noval, .val _ => isFalse (by intro h; cases h)
  | .val _, .noval => isFalse (by intro h; cases h)
  | .val v, .val w =>
      match Value.deq v w with
      | isTrue h => isTrue (by rw [h])
      | isFalse h => isFalse (by intro hc; cases hc; exact h rfl)

def Value.deq : (a b : Value) → Decidable (a = b)
  | .vnull, .vnull => isTrue rfl
  | .vstr s, .vstr t =>
      match decEq s t with
      | isTrue h => isTrue (by rw [h])
      | isFalse h => isFalse (by intro hc; cases hc; exact h rfl)
  | .vint n, .vint m =>
      match decEq n m with
      | isTrue h => isTrue (by rw [h])
      | isFalse h => isFalse (by intro hc; cases hc; exact h rfl)
  | .vfloat s, .vfloat t =>
      match decEq s t with
      | isTrue h => isTrue (by rw [h])
      | isFalse h => isFalse (by intro hc; cases hc; exact h rfl)
  | .vbool b, .vbool c =>
      match decEq b c with
      | isTrue h => isTrue (by rw [h])
      | isFalse h => isFalse (by intro hc; cases hc; exact h rfl)
  | .vbytes bs, .vbytes cs =>
      match decEq bs cs with
      | isTrue h => isTrue (by rw [h])
      | isFalse h => isFalse (by intro hc; cases hc; exact h rfl)
  | .vmap fs, .vmap gs =>
      match Fields.deq fs gs with
      | isTrue h => isTrue (by rw [h])
      | isFalse h => isFalse (by intro hc; cases hc; exact h rfl)
  | .vinst c fs, .vinst d gs =>
      match AttrsCls.deq c d, Fields.deq fs gs with
      | isTrue h1, isTrue h2 => isTrue (by rw [h1, h2])
      | isFalse h1, _ => isFalse (by intro hc; cases hc; exact h1 rfl)
      | _, isFalse h2 => isFalse (by intro hc; cases hc; exact h2 rfl)
  | .vext n p, .vext m q =>
      match decEq n m, Value.deq p q with
      | isTrue h1, isTrue h2 => isTrue (by rw [h1, h2])
      | isFalse h1, _ => isFalse (by intro hc; cases hc; exact h1 rfl)
      | _, isFalse h2 => isFalse (by intro hc; cases hc; exact h2 rfl)
  | .vnull, .vstr _ => isFalse (by intro h; cases h)
  | .vnull, .vint _ => isFalse (by intro h; cases h)
  | .vnull, .vfloat _ => isFalse (by intro h; cases h)
  | .vnull, .vbool _ => isFalse (by intro h; cases h)
  | .vnull, .vbytes _ => isFalse (by intro h; cases h)
  | .vnull, .vmap _ => isFalse (by intro h; cases h)
  | .vnull, .vinst _ _ => isFalse (by intro h; cases h)
  | .vnull, .vext _ _ => isFalse (by intro h; cases h)
  | .vstr _, .vnull => isFalse (by intro h; cases h)
  | .vstr _, .vint _ => isFalse (by intro h; cases h)
  | .vstr _, .vfloat _ => isFalse (by intro h; cases h)
  | .vstr _, .vbool _ => isFalse (by intro h; cases h)
  | .vstr _, .vbytes _ => isFalse (by intro h; cases h)
  | .vstr _, .vmap _ => isFalse (by intro h; cases h)
  | .vstr _, .vinst _ _ => isFalse (by intro h; cases h)
  | .vstr _, .vext _ _ => isFalse (by intro h; cases h)
  | .vint _, .vnull => isFalse (by intro h; cases h)
  | .vint _, .vstr _ => isFalse (by intro h; cases h)
  | .vint _, .vfloat _ => isFalse (by intro h; cases h)
  | .vint _, .vbool _ => isFalse (by intro h; cases h)
  | .vint _, .vbytes _ => isFalse (by intro h; cases h)
  | .vint _, .vmap _ => isFalse (by intro h; cases h)
  | .vint _, .vinst _ _ => isFalse (by intro h; cases h)
  | .vint _, .vext _ _ => isFalse (by intro h; cases h)
  | .vfloat _, .vnull => isFalse (by intro h; cases h)
  | .vfloat _, .vstr _ => isFalse (by intro h; cases h)
  | .vfloat _, .vint _ => isFalse (by intro h; cases h)
  | .vfloat _, .vbool _ => isFalse (by intro h; cases h)
  | .vfloat _, .vbytes _ => isFalse (by intro h; cases h)
  | .vfloat _, .vmap _ => isFalse (by intro h; cases h)
  | .vfloat _, .vinst _ _ => isFalse (by intro h; cases h)
  | .vfloat _, .vext _ _ => isFalse (by intro h; cases h)
  | .vbool _, .vnull => isFalse (by intro h; cases h)
  | .vbool _, .vstr _ => isFalse (by intro h; cases h)
  | .vbool _, .vint _ => isFalse (by intro h; cases h)
  | .vbool _, .vfloat _ => isFalse (by intro h; cases h)
  | .vbool _, .vbytes _ => isFalse (by intro h; cases h)
  | .vbool _, .vmap _ => isFalse (by intro h; cases h)
  | .vbool _, .vinst _ _ => isFalse (by intro h; cases h)
  | .vbool _, .vext _ _ => isFalse (by intro h; cases h)
  | .vbytes _, .vnull => isFalse (by intro h; cases h)
  | .vbytes _, .vstr _ => isFalse (by intro h; cases h)
  | .vbytes _, .vint _ => isFalse (by intro h; cases h)
  | .vbytes _, .vfloat _ => isFalse (by intro h; cases h)
  | .vbytes _, .vbool _ => isFalse (by intro h; cases h)
  | .vbytes _, .vmap _ => isFalse (by intro h; cases h)
  | .vbytes _, .vinst _ _ => isFalse (by intro h; cases h)
  | .vbytes _, .vext _ _ => isFalse (by intro h; cases h)
  | .vmap _, .vnull => isFalse (by intro h; cases h)
  | .vmap _, .vstr _ => isFalse (by intro h; cases h)
  | .vmap _, .vint _ => isFalse (by intro h; cases h)
  | .vmap _, .vfloat _ => isFalse (by intro h; cases h)
  | .vmap _, .vbool _ => isFalse (by intro h; cases h)
  | .vmap _, .vbytes _ => isFalse (by intro h; cases h)
  | .vmap _, .vinst _ _ => isFalse (by intro h; cases h)
  | .vmap _, .vext _ _ => isFalse (by intro h; cases h)
  | .vinst _ _, .vnull => isFalse (by intro h; cases h)
  | .vinst _ _, .vstr _ => isFalse (by intro h; cases h)
  | .vinst _ _, .vint _ => isFalse (by intro h; cases h)
  | .vinst _ _, .vfloat _ => isFalse (by intro h; cases h)
  | .vinst _ _, .vbool _ => isFalse (by intro h; cases h)
  | .vinst _ _, .vbytes _ => isFalse (by intro h; cases h)
  | .vinst _ _, .vmap _ => isFalse (by intro h; cases h)
  | .vinst _ _, .vext _ _ => isFalse (by intro h; cases h)
  | .vext _ _, .vnull => isFalse (by intro h; cases h)
  | .vext _ _, .vstr _ => isFalse (by intro h; cases h)
  | .vext _ _, .vint _ => isFalse (by intro h; cases h)
  | .vext _ _, .vfloat _ => isFalse (by intro h; cases h)
  | .vext _ _, .vbool _ => isFalse (by intro h; cases h)
  | .vext _ _, .vbytes _ => isFalse (by intro h; cases h)
  | .vext _ _, .vmap _ => isFalse (by intro h; cases h)
  | .vext _ _, .vinst _ _ => isFalse (by intro h; cases h)

def Fields.deq : (a b : Fields) → Decidable (a = b)
  | .nil, .nil => isTrue rfl
  | .nil, .cons _ _ _ => isFalse (by intro h; cases h)
  | .cons _ _ _, .nil => isFalse (by intro h; cases h)
  | .cons n v r, .cons m w s =>
      match decEq n m, Value.deq v w, Fields.deq r s with
      | isTrue h1, isTrue h2, isTrue h3 => isTrue (by rw [h1, h2, h3])
      | isFalse h1, _, _ => isFalse (by intro hc; cases hc; exact h1 rfl)
      | _, isFalse h2, _ => isFalse (by intro hc; cases hc; exact h2 rfl)
      | _, _, isFalse h3 => isFalse (by intro hc; cases hc; exact h3 rfl)
end

instance : DecidableEq Ty := Ty.deq
instance : DecidableEq AttrsCls := AttrsCls.deq
instance : DecidableEq AList := AList.deq
instance : DecidableEq Attrib := Attrib.deq
instance : DecidableEq VOpt := VOpt.deq
instance : DecidableEq Value := Value.deq
instance : DecidableEq Fields := Fields.deq

/-- `__name__` of an attrs class. -/
def AttrsCls.name : AttrsCls → String
  | .mk n _ => n

/-- `__attrs_attrs__` of an attrs class. -/
def AttrsCls.attribs : AttrsCls → AList
  | .mk _ as => as

/-- `attribute.name`. -/
def Attrib.name : Attrib → String
  | .mk n _ _ => n

/-- `attribute.type`. -/
def Attrib.type : Attrib → Ty
  | .mk _ t _ => t

/-- `attribute.default`. -/
def Attrib.dflt : Attrib → VOpt
  | .mk _ _ d => d

/-! ## Dictionary operations

Python dicts preserve insertion order; assignment to an existing key keeps
its position, `del` removes it.  The bridge only assigns under a membership
guard, so `Fields.set` replacing the first occurrence is exact. -/

/-- `key in data`. -/
def Fields.hasKey : Fields → String → Bool
  | .nil, _ => false
  | .cons n _ rest, k => n = k || rest.hasKey k

/-- `data.get(key)` / `data[key]` (first occurrence). -/
def Fields.get : Fields → String → Option Value
  | .nil, _ => none
  | .cons n v rest, k => if n = k then some v else rest.get k

/-- `data[key] = v` on a key already present (replace in place). -/
def Fields.set : Fields → String → Value → Fields
  | .nil, k, v => .cons k v .nil
  | .cons n w rest, k, v =>
      if n = k then .cons n v rest else .cons n w (rest.set k v)

/-- `del data[key]` (first occurrence). -/
def Fields.del : Fields → String → Fields
  | .nil, _ => .nil
  | .cons n w rest, k => if n = k then rest else .cons n w (rest.del k)

/-- The ordered key list of a mapping. -/
def Fields.keys : Fields → List String
  | .nil => []
  | .cons n _ rest => n :: rest.keys

/-- The ordered attribute-name list of `__attrs_attrs__`. -/
def AList.names : AList → List String
  | .nil => []
  | .cons a rest => a.name :: rest.names

/-- Membership of an attribute in an attribute list. -/
def AList.mem : AList → Attrib → Prop
  | .nil, _ => False
  | .cons a rest, b => a = b ∨ rest.mem b

/-- First attribute with the given name, if any. -/
def AList.find : AList → String → Option Attrib
  | .nil, _ => none
  | .cons a rest, k => if a.name = k then some a else rest.find k

/-! ## Derived wire schema nodes

The derived schema is a tree of plain dicts/strings/lists in the source; a
field dict `{"name": ..., "type": ..., ("default": None)}` becomes `SField`
(with `hasNullDefault` recording the presence of the `"default": None` key),
and a type position becomes `Schema`: a primitive kind tag string, a bare
name reference, a named record with fields, or the two-element union
`["null", t]`.  Record-level metadata keys of the base CloudEvent schema
(`namespace`, `version`, `doc`) are not modelled: no claim concerns them. -/

mutual
inductive Schema where
  | tag (s : String)
  | ref (n : String)
  | record (name : String) (fields : SFields)
  | union2 (a b : Schema)

inductive SFields where
  | nil
  | cons (f : SField) (rest : SFields)

inductive SField where
  | mk (name : String) (type : Schema) (hasNullDefault : Bool)
end

/-- Field name of a schema field node. -/
def SField.name : SField → String
  | .mk n _ _ => n

/-- Type node of a schema field node. -/
def SField.type : SField → Schema
  | .mk _ t _ => t

/-- Whether the field node carries `"default": None`. -/
def SField.hasNullDefault : SField → Bool
  | .mk _ _ d => d

/-- An extension bundle (`AvroAttrsBridgeExtension`): a schema fragment
(`record_fields()`), a serializer and a deserializer.
Modelled from the spec: `avro_attrs_bridge_extensions.py` is not part of the
sources; per the spec an extension is a capability bundle
`{type identity, schema-fragment producer, serializer, deserializer}`. -/
structure Extension where
  fragment : Schema
  ser : Value → Value
  deser : Value → Value

/-- The extension registry `self.extensions`: lookup by exact type identity
(`self.extensions.get(_object_type)`). -/
def ExtRegistry : Type := Ty → Option Extension

/-- The empty registry (no extensions). -/
def noExts : ExtRegistry := fun _ => none

/-- The primitive type catalog.
Modelled from the spec: `PYTHON_TYPE_TO_AVRO_MAPPING` (`avro_types.py`) is
not part of the sources; per the spec it is a fixed mapping from primitive
type identities (text, integer, floating-point, boolean, bytes, none) to
wire-primitive kind tags, with the container kinds `list ↦ "array"` and
`dict ↦ "record"` present only to be rejected. -/
def primTag : PrimTy → String
  | .str => "string"
  | .int => "long"
  | .float => "double"
  | .bool => "boolean"
  | .bytes => "bytes"
  | .noneType => "null"

/-- `PYTHON_TYPE_TO_AVRO_MAPPING.get(_object_type)`: `some tag` exactly when
`_object_type in PYTHON_TYPE_TO_AVRO_MAPPING`. -/
def catalogTag : Ty → Option String
  | .prim p => some (primTag p)
  | .containerT .list => some "array"
  | .containerT .dict => some "record"
  | .ext _ => none
  | .attrsC _ => none

/-- The tail of `_get_object_fields`: if the field declared any default
(`if_default and default is not attr.NOTHING`), wrap the emitted type as
`["null", type]` and set `"default": None`. -/
def applyDefaultWrap (ifDefault : Bool) (dflt : VOpt) (f : SField) : SField :=
  if ifDefault ∧ dflt ≠ VOpt.noval then
    SField.mk f.name (Schema.union2 (Schema.tag "null") f.type) true
  else f

mutual
/-- `AvroAttrsBridge._get_object_fields`: derive the schema field node for
one declared field, threading the `schema_record_names` set. -/
def getObjectFields (E : ExtRegistry) (objectName : String) (objectType : Ty)
    (ifDefault : Bool) (dflt : VOpt) (seen : List String) :
    Except BErr (SField × List String) :=
  match E objectType with
  | some extension =>
      .ok (applyDefaultWrap ifDefault dflt
            (SField.mk objectName extension.fragment false), seen)
  | none =>
      match catalogTag objectType with
      | some tag =>
          if tag = "record" ∨ tag = "array" then .error .containerError
          else
            .ok (applyDefaultWrap ifDefault dflt
                  (SField.mk objectName (Schema.tag tag) false), seen)
      | none =>
          match objectType with
          | .attrsC c =>
              if seen.contains c.name then
                .ok (applyDefaultWrap ifDefault dflt
                      (SField.mk objectName (Schema.ref c.name) false), seen)
              else
                match recordFieldsForAttrsClass E c objectName
                        (c.name :: seen) with
                | .ok (f, seen₁) => .ok (applyDefaultWrap ifDefault dflt f, seen₁)
                | .error e => .error e
          | _ => .error .unsupportedType

/-- `AvroAttrsBridge._record_fields_for_attrs_class`: emit a full named
record definition for an attrs class. -/
def recordFieldsForAttrsClass (E : ExtRegistry) (attrsClass : AttrsCls)
    (fieldName : String) (seen : List String) :
    Except BErr (SField × List String) :=
  match attrsClass with
  | .mk clsName attribs =>
      match foldAttribs E attribs seen with
      | .ok (fs, seen₁) =>
          .ok (SField.mk fieldName (Schema.record clsName fs) false, seen₁)
      | .error e => .error e

/-- The `for attribute in attrs_class.__attrs_attrs__` loop of
`_record_fields_for_attrs_class`: every call passes `True` for `if_default`
and `attribute.default`. -/
def foldAttribs (E : ExtRegistry) (attribs : AList) (seen : List String) :
    Except BErr (SFields × List String) :=
  match attribs with
  | .nil => .ok (.nil, seen)
  | .cons a rest =>
      match a with
      | .mk aName aTy aDflt =>
          match getObjectFields E aName aTy true aDflt seen with
          | .ok (f, seen₁) =>
              match foldAttribs E rest seen₁ with
              | .ok (fs, seen₂) => .ok (.cons f fs, seen₂)
              | .error e => .error e
          | .error e => .error e
end

/-- The constant field list of the CloudEvent envelope schema
(`_attrs_to_avro_schema`'s `base_schema["fields"]`). -/
def cloudEventFields (dataField : SField) : SFields :=
  .cons (SField.mk "id" (Schema.tag "string") false)
    (.cons (SField.mk "type" (Schema.tag "string") false)
      (.cons (SField.mk "specversion" (Schema.tag "string") false)
        (.cons (SField.mk "time" (Schema.tag "string") false)
          (.cons (SField.mk "source" (Schema.tag "string") false)
            (.cons (SField.mk "sourcehost" (Schema.tag "string") false)
              (.cons (SField.mk "minorversion" (Schema.tag "int") false)
                (.cons dataField .nil)))))))

/-- `AvroAttrsBridge._attrs_to_avro_schema` (as invoked from `__init__` with
`schema_record_names = set()`): the CloudEvent envelope with the derived
`data` record field appended. -/
def attrsToAvroSchema (E : ExtRegistry) (attrsCls : AttrsCls) :
    Except BErr Schema :=
  match recordFieldsForAttrsClass E attrsCls "data" [] with
  | .ok (df, _) => .ok (Schema.record "CloudEvent" (cloudEventFields df))
  | .error e => .error e

/-! ## Marshaller

Modelled from the spec: the source marshals with
`attr.asdict(obj, value_serializer=self._extension_serializer)` (the `attrs`
library is an external collaborator), which per §4.2 of the spec expands a
record instance into an associative mapping field name → marshalled value,
where each value is produced by: if its declared field type has a registered
extension, call the extension serializer; else if the value itself is
record-shaped, recurse field by field; else pass the primitive through
unchanged.  The instance's attribute store and its class's declared
attribute list coincide for every constructible instance, so the expansion
walks the stored fields and resolves each declared type by name. -/

mutual
/-- Marshal one value (`attr.asdict` with `_extension_serializer`). -/
def marshalV (E : ExtRegistry) : Value → Value
  | .vinst cls fs =>
      match cls with
      | .mk _ attribs => .vmap (marshalFields E attribs fs)
  | v => v

/-- Marshal the attribute store of an instance against its class's declared
attribute list. -/
def marshalFields (E : ExtRegistry) (attribs : AList) : Fields → Fields
  | .nil => .nil
  | .cons n v rest =>
      match attribs.find n with
      | some a =>
          match E a.type with
          | some extension =>
              .cons n (extension.ser v) (marshalFields E attribs rest)
          | none => .cons n (marshalV E v) (marshalFields E attribs rest)
      | none => .cons n (marshalV E v) (marshalFields E attribs rest)
end

/-! ## Native construction

Modelled from the spec: construction of the final native instance is
delegated to the target type's own constructor (`attrs_cls(**data)`); the
attrs-generated `__init__` binds keyword arguments to declared attributes in
declaration order, supplies declared defaults for absent ones, fails when a
required (no-default) attribute is absent (`MissingRequiredField`), and —
CPython keyword-call semantics — rejects any keyword that is not a declared
attribute before binding. -/

/-- Bind each declared attribute from the reconciled mapping, falling back to
the declared default. -/
def bindFields : AList → Fields → Except BErr Fields
  | .nil, _ => .ok .nil
  | .cons a rest, data =>
      match data.get a.name with
      | some v =>
          match bindFields rest data with
          | .ok fs => .ok (.cons a.name v fs)
          | .error e => .error e
      | none =>
          match a.dflt with
          | .val d =>
              match bindFields rest data with
              | .ok fs => .ok (.cons a.name d fs)
              | .error e => .error e
          | .noval => .error .missingRequiredField

/-- `attrs_cls(**data)`. -/
def mkInstance (cls : AttrsCls) (data : Fields) : Except BErr Value :=
  match cls with
  | .mk _ attribs =>
      if data.keys.all (fun k => attribs.names.contains k) then
        match bindFields attribs data with
        | .ok fs => .ok (Value.vinst cls fs)
        | .error e => .error e
      else .error .unexpectedKeyword

/-! ## Reconciler (`dict_to_attrs`) -/

mutual
/-- The body of the `for attribute in attrs_cls.__attrs_attrs__` loop of
`dict_to_attrs`, for one attribute, acting on the (mutated-in-place) data
dict. -/
def dictStep (E : ExtRegistry) (a : Attrib) (data : Fields) :
    Except BErr Fields :=
  match a with
  | .mk aName aTy aDflt =>
      match data.get aName with
      | none => .ok data
      | some subData =>
          if subData = Value.vnull then
            -- delete keys that have defaults in the attr class and which
            -- have None as value, so the constructor default applies
            if aDflt ≠ VOpt.noval then .ok (data.del aName) else .ok data
          else
            match aTy with
            | .attrsC c =>
                if data.hasKey aName then
                  match dictToAttrs E subData c with
                  | .ok r => .ok (data.set aName r)
                  | .error e => .error e
                else .ok data
            | _ =>
                match E aTy with
                | some extension =>
                    if data.hasKey aName then
                      .ok (data.set aName (extension.deser subData))
                    else .error .necessaryKeyNotFound
                | none =>
                    if (catalogTag aTy).isNone then
                      .error .deserUnsupportedType
                    else .ok data

/-- The attribute loop of `dict_to_attrs`. -/
def dictToAttrsLoop (E : ExtRegistry) (attribs : AList) (data : Fields) :
    Except BErr Fields :=
  match attribs with
  | .nil => .ok data
  | .cons a rest =>
      match dictStep E a data with
      | .ok data₁ => dictToAttrsLoop E rest data₁
      | .error e => .error e

/-- `AvroAttrsBridge.dict_to_attrs`: reconcile a decoded wire mapping against
the target attrs class and construct the native instance
(`attrs_cls(**data)`).  A non-mapping value fails with a `TypeError` as in
Python. -/
def dictToAttrs (E : ExtRegistry) (v : Value) (attrsCls : AttrsCls) :
    Except BErr Value :=
  match v with
  | .vmap data =>
      match attrsCls with
      | .mk clsName attribs =>
          match dictToAttrsLoop E attribs data with
          | .ok data₁ => mkInstance (.mk clsName attribs) data₁
          | .error e => .error e
  | _ => .error .typeError
end

/-! ## Signal-style reconciliation and decode entry points -/

/-- The `init_data` mapping of an `OpenEdxPublicSignal` (field name to
declared type, in declaration order). -/
def SignalData : Type := List (String × Ty)

/-- `type(value) == data_type` (exact runtime type comparison). -/
def runtimeTypeIs : Value → Ty → Bool
  | .vstr _, .prim .str => true
  | .vint _, .prim .int => true
  | .vfloat _, .prim .float => true
  | .vbool _, .prim .bool => true
  | .vbytes _, .prim .bytes => true
  | .vnull, .prim .noneType => true
  | .vmap _, .containerT .dict => true
  | .vinst c _, .attrsC c₂ => c = c₂
  | .vext n _, .ext n₂ => n = n₂
  | _, _ => false

/-- `AvroAttrsBridge.dict_to_signal`: reconcile the decoded `data` mapping
key by key against the signal's `init_data`.  The unguarded interactive
`breakpoint()` on the unmatched path is modelled as the fatal outcome
`BErr.breakpointHit`. -/
def dictToSignal (E : ExtRegistry) (initData : SignalData) (data : Fields) :
    Except BErr Fields :=
  match initData with
  | [] => .ok data
  | (key, dataType) :: rest =>
      match data.get key with
      | none => dictToSignal E rest data
      | some v =>
          match dataType with
          | .attrsC c =>
              match dictToAttrs E v c with
              | .ok r => dictToSignal E rest (data.set key r)
              | .error e => .error e
          | _ =>
              if runtimeTypeIs v dataType then dictToSignal E rest data
              else
                match E dataType with
                | some extension =>
                    dictToSignal E rest (data.set key (extension.deser v))
                | none => .error .breakpointHit

/-- `AvroAttrsBridge.deserialize`: the external codec
(`fastavro.schemaless_reader`, a collaborator outside the sources) parses the
bytes — consulting the writer schema exactly when one is supplied — into a
decoded record tree; the bridge then reconciles `record["data"]` against the
target attrs class.  The codec is a parameter: `codec ws` is the record tree
the external codec produces from the byte payload when handed writer schema
option `ws`. -/
def deserialize (E : ExtRegistry) (codec : Option Schema → Fields)
    (attrsCls : AttrsCls) (writerSchema : Option Schema) : Except BErr Value :=
  let record := codec writerSchema
  match record.get "data" with
  | some d => dictToAttrs E d attrsCls
  | none => .error .typeError

/-! ## Typing and well-formedness predicates -/

/-- `isinstance(v, p)` for the catalog primitives (exact runtime type). -/
def primMatches : PrimTy → Value → Bool
  | .str, .vstr _ => true
  | .int, .vint _ => true
  | .float, .vfloat _ => true
  | .bool, .vbool _ => true
  | .bytes, .vbytes _ => true
  | .noneType, .vnull => true
  | _, _ => false

mutual
/-- `v` is a value of record type `ty` in the claims' sense: primitive
fields hold primitives of the declared kind, extension-typed fields hold
instances of a type with a registered extension, record fields hold
instances of exactly the declared class, container types never occur — and,
as everywhere in attrs-built code, any field may hold `None`. -/
def conformsV (E : ExtRegistry) (v : Value) : Ty → Bool
  | .prim p => v = Value.vnull || primMatches p v
  | .containerT _ => false
  | .ext n =>
      match v with
      | .vnull => true
      | .vext m _ => m = n && (E (Ty.ext n)).isSome
      | _ => false
  | .attrsC (.mk clsName attribs) =>
      match v with
      | .vnull => true
      | .vinst c fs =>
          c = AttrsCls.mk clsName attribs && conformsFields E attribs fs
      | _ => false

/-- The attribute store of an instance matches the declared attribute list:
same names in the same order, each value conforming to the declared type. -/
def conformsFields (E : ExtRegistry) : AList → Fields → Bool
  | .nil, .nil => true
  | .cons (.mk aName aTy _) rest, .cons n v frest =>
      n = aName && conformsV E v aTy && conformsFields E rest frest
  | _, _ => false
end

mutual
/-- Every field slot (recursively) holding `None` is declared either without
a default or with default `None`. -/
def nullCompatV (E : ExtRegistry) (v : Value) : Ty → Bool
  | .attrsC (.mk _ attribs) =>
      match v with
      | .vinst _ fs => nullCompatFields E attribs fs
      | _ => true
  | _ => true

/-- Pointwise `nullCompatV`, plus the head condition pairing each stored
`None` with its attribute's default. -/
def nullCompatFields (E : ExtRegistry) : AList → Fields → Bool
  | .cons (.mk _ aTy aDflt) rest, .cons _ v frest =>
      (if v = Value.vnull then
          (aDflt = VOpt.noval || aDflt = VOpt.val Value.vnull)
        else true)
        && nullCompatV E v aTy && nullCompatFields E rest frest
  | _, _ => true
end

/-- No duplicate names in a key list. -/
def nodupKeys : List String → Bool
  | [] => true
  | k :: rest => !rest.contains k && nodupKeys rest

mutual
/-- Well-formed type: every attrs class in it has pairwise distinct
attribute names (guaranteed by Python's class namespace). -/
def wfTy : Ty → Bool
  | .attrsC c => wfCls c
  | _ => true

def wfCls : AttrsCls → Bool
  | .mk _ attribs => nodupKeys attribs.names && wfAList attribs

def wfAList : AList → Bool
  | .nil => true
  | .cons (.mk _ aTy _) rest => wfTy aTy && wfAList rest
end

/-- The extensions behave as the spec's capability bundles: deserialization
inverts serialization, serialization produces a wire value (never `None`),
and extensions are registered for non-record types only (as in the default
registry, which covers `datetime`). -/
def ExtGood (E : ExtRegistry) : Prop :=
  (∀ ty e, E ty = some e →
    (∀ v, e.deser (e.ser v) = v) ∧ (∀ v, e.ser v ≠ Value.vnull)) ∧
  (∀ c, E (Ty.attrsC c) = none)

/-! ## Derived notions used by the theorems -/

/-- The residue of one marshalled instance after the reconciliation loop:
exactly the stored `None`s of defaulted, extension-free fields are removed
(so that the constructor default applies); everything else keeps its
original value. -/
def filterCompat (E : ExtRegistry) : AList → Fields → Fields
  | .cons (.mk _ aTy aD) rest, .cons n v frest =>
      (match E aTy with
       | none =>
           if v = Value.vnull ∧ aD ≠ VOpt.noval then filterCompat E rest frest
           else .cons n v (filterCompat E rest frest)
       | some _ => .cons n v (filterCompat E rest frest))
  | _, fs => fs

mutual
/-- Names of all full record definitions occurring in a schema node. -/
def definedNamesS : Schema → List String
  | .tag _ => []
  | .ref _ => []
  | .record n fs => n :: definedNamesSF fs
  | .union2 a b => definedNamesS a ++ definedNamesS b

/-- Names of all full record definitions in a schema field list. -/
def definedNamesSF : SFields → List String
  | .nil => []
  | .cons (.mk _ t _) rest => definedNamesS t ++ definedNamesSF rest
end

/-- The emitted type of a field with the nullable-union wrapper removed. -/
def stripWrap (f : SField) : Schema :=
  match f.type with
  | .union2 (.tag "null") t => t
  | t => t

/-- Field emitted as the nullable union `["null", t]` with `"default": None`. -/
def isNullableWrapped (f : SField) : Bool :=
  f.hasNullDefault &&
    (match f.type with
     | .union2 (.tag "null") _ => true
     | _ => false)

/-- A derived field list is wrapped exactly where the source attribute list
declares a default. -/
def wrapAligned : AList → SFields → Bool
  | .nil, .nil => true
  | .cons (.mk _ _ aD) rest, .cons f frest =>
      (isNullableWrapped f == decide (aD ≠ VOpt.noval)) && wrapAligned rest frest
  | _, _ => false

mutual
/-- All attrs classes occurring in a type tree (at any depth). -/
def classesInTy : Ty → List AttrsCls
  | .attrsC c => classesInCls c
  | _ => []

/-- All attrs classes in a class subtree, the class itself included. -/
def classesInCls : AttrsCls → List AttrsCls
  | .mk n as => .mk n as :: classesInAList as

/-- All attrs classes below an attribute list. -/
def classesInAList : AList → List AttrsCls
  | .nil => []
  | .cons (.mk _ aTy _) rest => classesInTy aTy ++ classesInAList rest
end

/-- A field type on which `_get_object_fields` succeeds without recursion
into a container rejection: extension-backed, catalog scalar, or an attrs
class. -/
def supportedField (E : ExtRegistry) (ty : Ty) : Bool :=
  (E ty).isSome ||
    (match ty with
     | .prim _ => true
     | .attrsC _ => true
     | _ => false)

/-- A field type with no registered extension, no catalog entry and no
record shape (the `UnsupportedType` condition). -/
def directUnsupported (E : ExtRegistry) : Ty → Bool
  | .ext n => (E (Ty.ext n)).isNone
  | _ => false

/-- Every direct field of the class has a supported type. -/
def okAList (E : ExtRegistry) : AList → Bool
  | .nil => true
  | .cons (.mk _ aTy _) rest => supportedField E aTy && okAList E rest

/-- Every direct field of the class has a supported type. -/
def okClass (E : ExtRegistry) : AttrsCls → Bool
  | .mk _ as => okAList E as

mutual
/-- Some field somewhere in the type tree is a bare container without a
registered extension. -/
def unextContainerTy (E : ExtRegistry) : Ty → Bool
  | .containerT c => (E (Ty.containerT c)).isNone
  | .attrsC c => unextContainerCls E c
  | _ => false

def unextContainerCls (E : ExtRegistry) : AttrsCls → Bool
  | .mk _ as => unextContainerAList E as

def unextContainerAList (E : ExtRegistry) : AList → Bool
  | .nil => false
  | .cons (.mk _ aTy _) rest =>
      unextContainerTy E aTy || unextContainerAList E rest
end

mutual
/-- Some field somewhere in the type tree has an `UnsupportedType`-condition
type. -/
def hasUnsupportedTy (E : ExtRegistry) : Ty → Bool
  | .ext n => (E (Ty.ext n)).isNone
  | .attrsC c => hasUnsupportedCls E c
  | _ => false

def hasUnsupportedCls (E : ExtRegistry) : AttrsCls → Bool
  | .mk _ as => hasUnsupportedAList E as

def hasUnsupportedAList (E : ExtRegistry) : AList → Bool
  | .nil => false
  | .cons (.mk _ aTy _) rest =>
      hasUnsupportedTy E aTy || hasUnsupportedAList E rest
end

mutual
/-- A wire value is reconcilable against a declared type without raising
anything except possibly a missing-required-field failure: nested record
positions hold mappings with declared keys only, and every non-null value
sits at a type the reconciliation loop can process. -/
def wireOkV (E : ExtRegistry) : Ty → Option Value → Bool
  | _, none => true
  | _, some Value.vnull => true
  | .attrsC c, some (Value.vmap fs) => wireOkCls E c fs
  | .attrsC _, some _ => false
  | ty, some _ => (E ty).isSome || (catalogTag ty).isSome

def wireOkCls (E : ExtRegistry) : AttrsCls → Fields → Bool
  | .mk _ as, fs =>
      (fs.keys.all fun k => as.names.contains k) && wireOkAttribs E as fs

def wireOkAttribs (E : ExtRegistry) : AList → Fields → Bool
  | .nil, _ => true
  | .cons (.mk aName aTy _) rest, fs =>
      wireOkV E aTy (fs.get aName) && wireOkAttribs E rest fs
end

/-- Within the class list of one derivation, a name determines the class:
two classes of the tree with the same `__name__` are the same class (the
name-keyed deduplication of `schema_record_names` is sound only under this
identification). -/
def InjNames (U : List AttrsCls) : Prop :=
  ∀ c₁, c₁ ∈ U → ∀ c₂, c₂ ∈ U → c₁.name = c₂.name → c₁ = c₂

/-- Extension schema fragments convert values to wire primitives and
therefore contain no named record definitions of their own (as the built-in
datetime extension, whose fragment is the plain "string" tag). -/
def FragFlat (E : ExtRegistry) : Prop :=
  ∀ ty e, E ty = some e → definedNamesS e.fragment = []

/-- Read one attribute value off a native instance (`getattr`). -/
def instField : Value → String → Option Value
  | .vinst _ fs, k => fs.get k
  | _, _ => none

/-- Some declared attribute has no default and its key is absent from the
wire mapping. -/
def missingRequired : AList → Fields → Bool
  | .nil, _ => false
  | .cons (.mk aName _ aD) rest, data =>
      (decide (aD = VOpt.noval) && !data.hasKey aName) ||
        missingRequired rest data

/-! ## Concrete record types used as witnesses -/

/-- The spec's example record type `{sub_name: text, course_id: text}`. -/
def tdCls : AttrsCls :=
  .mk "TestData"
    (.cons (.mk "sub_name" (.prim .str) .noval)
      (.cons (.mk "course_id" (.prim .str) .noval) .nil))

/-- A nested record type. -/
def subCls : AttrsCls :=
  .mk "SubTestData" (.cons (.mk "sub_name" (.prim .str) .noval) .nil)

/-- A record type referencing the same nested record type twice. -/
def dupCls : AttrsCls :=
  .mk "Duo"
    (.cons (.mk "first" (.attrsC subCls) .noval)
      (.cons (.mk "second" (.attrsC subCls) .noval) .nil))

/-- A record type with one defaulted text field (default `"default_value"`). -/
def dfltCls : AttrsCls :=
  .mk "Dflt"
    (.cons (.mk "added_key" (.prim .str) (.val (.vstr "default_value"))) .nil)

/-- A record type whose only field has an unextended custom type. -/
def badCls : AttrsCls :=
  .mk "Bad" (.cons (.mk "unextended" (.ext "UnExtendedClass") .noval) .nil)

/-- A record type nesting `badCls` behind a supported field. -/
def nestedBadCls : AttrsCls :=
  .mk "NestBad"
    (.cons (.mk "name" (.prim .str) .noval)
      (.cons (.mk "bad" (.attrsC badCls) .noval) .nil))

/-- A record type with a bare list-typed field. -/
def contCls : AttrsCls :=
  .mk "Cont" (.cons (.mk "items" (.containerT .list) .noval) .nil)

/-- A record type with one required and one defaulted field. -/
def reqCls : AttrsCls :=
  .mk "Req"
    (.cons (.mk "sub_name" (.prim .str) .noval)
      (.cons (.mk "added_key" (.prim .str) (.val (.vstr "default_value")))
        .nil))

/-! ## Basic dictionary lemmas -/

theorem Attrib.name_mk (n : String) (t : Ty) (d : VOpt) :
    (Attrib.mk n t d).name = n := rfl

theorem Attrib.type_mk (n : String) (t : Ty) (d : VOpt) :
    (Attrib.mk n t d).type = t := rfl

theorem Attrib.dflt_mk (n : String) (t : Ty) (d : VOpt) :
    (Attrib.mk n t d).dflt = d := rfl

theorem AttrsCls.clsName_mk (n : String) (as : AList) :
    (AttrsCls.mk n as).name = n := rfl

theorem AttrsCls.attribs_mk (n : String) (as : AList) :
    (AttrsCls.mk n as).attribs = as := rfl

theorem Fields.get_cons_self (n : String) (v : Value) (r : Fields) :
    (Fields.cons n v r).get n = some v := by
  simp [Fields.get]

theorem Fields.get_cons_ne (n k : String) (v : Value) (r : Fields)
    (h : n ≠ k) : (Fields.cons n v r).get k = r.get k := by
  simp [Fields.get, h]

theorem Fields.set_cons_self (n : String) (v w : Value) (r : Fields) :
    (Fields.cons n v r).set n w = Fields.cons n w r := by
  simp [Fields.set]

theorem Fields.set_cons_ne (n k : String) (v w : Value) (r : Fields)
    (h : n ≠ k) : (Fields.cons n v r).set k w = Fields.cons n v (r.set k w) := by
  simp [Fields.set, h]

theorem Fields.del_cons_self (n : String) (v : Value) (r : Fields) :
    (Fields.cons n v r).del n = r := by
  simp [Fields.del]

theorem Fields.del_cons_ne (n k : String) (v : Value) (r : Fields)
    (h : n ≠ k) : (Fields.cons n v r).del k = Fields.cons n v (r.del k) := by
  simp [Fields.del, h]

theorem Fields.hasKey_cons_self (n : String) (v : Value) (r : Fields) :
    (Fields.cons n v r).hasKey n = true := by
  simp [Fields.hasKey]

theorem Fields.hasKey_cons_ne (n k : String) (v : Value) (r : Fields)
    (h : n ≠ k) : (Fields.cons n v r).hasKey k = r.hasKey k := by
  simp [Fields.hasKey, h]

theorem Fields.hasKey_eq_isSome : (d : Fields) → (k : String) →
    d.hasKey k = (d.get k).isSome
  | .nil, k => by simp [Fields.hasKey, Fields.get]
  | .cons n v r, k => by
      by_cases h : n = k
      · subst h; simp [Fields.hasKey, Fields.get]
      · simp [Fields.hasKey, Fields.get, h, Fields.hasKey_eq_isSome r k]

theorem Fields.get_eq_none_of_not_mem_keys : (d : Fields) → (k : String) →
    k ∉ d.keys → d.get k = none
  | .nil, _, _ => by simp [Fields.get]
  | .cons n v r, k, h => by
      simp [Fields.keys] at h
      simp [Fields.get, Ne.symm h.1,
            Fields.get_eq_none_of_not_mem_keys r k h.2]

theorem Fields.keys_set : (d : Fields) → (k : String) → (v : Value) →
    d.hasKey k = true → (d.set k v).keys = d.keys
  | .nil, k, v, h => by simp [Fields.hasKey] at h
  | .cons n w r, k, v, h => by
      by_cases hnk : n = k
      · subst hnk; simp [Fields.set, Fields.keys]
      · simp [Fields.hasKey, hnk] at h
        simp [Fields.set, Fields.keys, hnk, Fields.keys_set r k v h]

theorem AList.find_cons_self (a : Attrib) (rest : AList) :
    (AList.cons a rest).find a.name = some a := by
  simp [AList.find]

theorem AList.find_cons_ne (a : Attrib) (rest : AList) (k : String)
    (h : a.name ≠ k) : (AList.cons a rest).find k = rest.find k := by
  simp [AList.find, h]

/-! ## Round-trip lemmas -/

theorem conformsFields_keys (E : ExtRegistry) : (A : AList) → (fs : Fields) →
    conformsFields E A fs = true → fs.keys = A.names
  | .nil, .nil, _ => rfl
  | .nil, .cons _ _ _, h => by simp [conformsFields] at h
  | .cons a _, .nil, h => by
      cases a; simp [conformsFields] at h
  | .cons (.mk aName aTy aD) rest, .cons n v frest, h => by
      simp only [conformsFields, Bool.and_eq_true, decide_eq_true_eq] at h
      simp [Fields.keys, AList.names, Attrib.name, h.1.1,
            conformsFields_keys E rest frest h.2]

theorem marshalFields_congr (E : ExtRegistry) : (A₁ A₂ : AList) →
    (fs : Fields) → (∀ m, m ∈ fs.keys → A₁.find m = A₂.find m) →
    marshalFields E A₁ fs = marshalFields E A₂ fs
  | _, _, .nil, _ => by simp [marshalFields]
  | A₁, A₂, .cons n v frest, h => by
      have hn : A₁.find n = A₂.find n := h n (by simp [Fields.keys])
      have ht : ∀ m, m ∈ frest.keys → A₁.find m = A₂.find m :=
        fun m hm => h m (by simp [Fields.keys, hm])
      rw [marshalFields, marshalFields, hn,
          marshalFields_congr E A₁ A₂ frest ht]

/-- `marshalV` is the identity on anything that is not an attrs instance. -/
theorem marshalV_nonInst (E : ExtRegistry) (v : Value)
    (h : ∀ c fs, v ≠ Value.vinst c fs) : marshalV E v = v := by
  cases v <;> first
    | rfl
    | (exact absurd rfl (h _ _))

/-- One reconciliation step ignores dict entries with a different name. -/
theorem stepCommute (E : ExtRegistry) (a : Attrib) (n : String) (v : Value)
    (M : Fields) (h : a.name ≠ n) :
    dictStep E a (Fields.cons n v M) =
      (dictStep E a M).map (Fields.cons n v) := by
  obtain ⟨aName, aTy, aD⟩ := a
  have hna : n ≠ aName := by
    intro hc; exact h (by simp [Attrib.name, hc])
  rw [dictStep, dictStep, Fields.get_cons_ne n aName v M hna]
  cases hM : M.get aName with
  | none => simp [Except.map]
  | some subData =>
      by_cases hnull : subData = Value.vnull
      · simp only [hnull, if_pos rfl]
        by_cases hd : aD ≠ VOpt.noval
        · simp [hd, Fields.del_cons_ne n aName v M hna, Except.map]
        · simp [hd, Except.map]
      · simp only [if_neg hnull]
        cases aTy with
        | attrsC c =>
            rw [Fields.hasKey_cons_ne n aName v M hna]
            cases hK : M.hasKey aName with
            | false => simp [Except.map]
            | true =>
                simp only [if_pos rfl]
                cases dictToAttrs E subData c with
                | ok r => simp [Fields.set_cons_ne n aName v r M hna, Except.map]
                | error e => simp [Except.map]
        | prim p =>
            cases E (Ty.prim p) with
            | some ext =>
                rw [Fields.hasKey_cons_ne n aName v M hna]
                cases hK : M.hasKey aName with
                | false => simp [Except.map]
                | true =>
                    simp [Fields.set_cons_ne n aName v _ M hna, Except.map]
            | none => simp [catalogTag, Except.map]
        | containerT c =>
            cases E (Ty.containerT c) with
            | some ext =>
                rw [Fields.hasKey_cons_ne n aName v M hna]
                cases hK : M.hasKey aName with
                | false => simp [Except.map]
                | true =>
                    simp [Fields.set_cons_ne n aName v _ M hna, Except.map]
            | none => cases c <;> simp [catalogTag, Except.map]
        | ext en =>
            cases E (Ty.ext en) with
            | some ext =>
                rw [Fields.hasKey_cons_ne n aName v M hna]
                cases hK : M.hasKey aName with
                | false => simp [Except.map]
                | true =>
                    simp [Fields.set_cons_ne n aName v _ M hna, Except.map]
            | none => simp [catalogTag, Except.map]

/-- The reconciliation loop ignores dict entries whose name is not a
declared attribute name. -/
theorem loopCommute (E : ExtRegistry) : (A : AList) → (n : String) →
    (v : Value) → (M : Fields) → n ∉ A.names →
    dictToAttrsLoop E A (Fields.cons n v M) =
      (dictToAttrsLoop E A M).map (Fields.cons n v)
  | .nil, n, v, M, _ => by simp [dictToAttrsLoop, Except.map]
  | .cons a rest, n, v, M, h => by
      have h1 : a.name ≠ n := by
        intro hc; exact h (by simp [AList.names, hc])
      have h2 : n ∉ rest.names := by
        intro hc; exact h (by simp [AList.names, hc])
      rw [dictToAttrsLoop, dictToAttrsLoop, stepCommute E a n v M h1]
      cases dictStep E a M with
      | ok d => simp only [Except.map]; exact loopCommute E rest n v d h2
      | error e => simp [Except.map]

/-- Binding declared attributes ignores dict entries with undeclared names. -/
theorem bindFields_skip : (A : AList) → (k : String) → (v : Value) →
    (d : Fields) → k ∉ A.names →
    bindFields A (Fields.cons k v d) = bindFields A d
  | .nil, _, _, _, _ => by simp [bindFields]
  | .cons a rest, k, v, d, h => by
      have h1 : a.name ≠ k := by
        intro hc; exact h (by simp [AList.names, hc])
      have h2 : k ∉ rest.names := by
        intro hc; exact h (by simp [AList.names, hc])
      rw [bindFields, bindFields, Fields.get_cons_ne k a.name v d (Ne.symm h1),
          bindFields_skip rest k v d h2]

theorem filterCompat_keys (E : ExtRegistry) : (A : AList) → (fs : Fields) →
    ∀ k, k ∈ (filterCompat E A fs).keys → k ∈ fs.keys
  | .nil, fs, k, h => by simpa [filterCompat] using h
  | .cons (.mk aN aTy aD) rest, .nil, k, h => by
      simpa [filterCompat] using h
  | .cons (.mk aN aTy aD) rest, .cons n v frest, k, h => by
      rw [filterCompat] at h
      cases hE : E aTy with
      | some e =>
          rw [hE] at h
          simp only [Fields.keys, List.mem_cons] at h ⊢
          cases h with
          | inl h => exact Or.inl h
          | inr h => exact Or.inr (filterCompat_keys E rest frest k h)
      | none =>
          rw [hE] at h
          by_cases hc : v = Value.vnull ∧ aD ≠ VOpt.noval
          · rw [if_pos hc] at h
            exact List.mem_cons_of_mem n (filterCompat_keys E rest frest k h)
          · rw [if_neg hc] at h
            simp only [Fields.keys, List.mem_cons] at h ⊢
            cases h with
            | inl h => exact Or.inl h
            | inr h => exact Or.inr (filterCompat_keys E rest frest k h)

/-- Binding the loop's residue against the declared attributes reproduces
the original attribute store. -/
theorem bindFilter (E : ExtRegistry) : (A : AList) → (fs : Fields) →
    nodupKeys A.names = true → conformsFields E A fs = true →
    nullCompatFields E A fs = true →
    bindFields A (filterCompat E A fs) = .ok fs
  | .nil, .nil, _, _, _ => by simp [bindFields, filterCompat]
  | .nil, .cons _ _ _, _, hc, _ => by simp [conformsFields] at hc
  | .cons a rest, .nil, _, hc, _ => by cases a; simp [conformsFields] at hc
  | .cons (.mk aName aTy aD) rest, .cons n v frest, hnd, hc, hn => by
      simp only [conformsFields, Bool.and_eq_true, decide_eq_true_eq] at hc
      obtain ⟨⟨hcn, hcv⟩, hcr⟩ := hc
      subst hcn
      simp only [nodupKeys, AList.names, Attrib.name, Bool.and_eq_true,
        Bool.not_eq_true'] at hnd
      have hmem : n ∉ rest.names := by
        have := hnd.1
        simp at this
        exact this
      simp only [nullCompatFields, Bool.and_eq_true] at hn
      obtain ⟨⟨hn1, _⟩, hn3⟩ := hn
      have ihx := bindFilter E rest frest hnd.2 hcr hn3
      rw [filterCompat]
      cases hE : E aTy with
      | some e =>
          rw [bindFields]
          simp only [Attrib.name, Fields.get_cons_self]
          rw [bindFields_skip rest n v (filterCompat E rest frest) hmem, ihx]
      | none =>
          by_cases hcond : v = Value.vnull ∧ aD ≠ VOpt.noval
          · rw [if_pos hcond]
            rw [bindFields]
            have hget : (filterCompat E rest frest).get n = none := by
              apply Fields.get_eq_none_of_not_mem_keys
              intro hk
              have := filterCompat_keys E rest frest n hk
              rw [conformsFields_keys E rest frest hcr] at this
              exact hmem this
            simp only [Attrib.name, hget]
            have hdv : aD = VOpt.val Value.vnull := by
              rw [if_pos hcond.1] at hn1
              rcases (by simpa using hn1 :
                  aD = VOpt.noval ∨ aD = VOpt.val Value.vnull) with h | h
              · exact absurd h hcond.2
              · exact h
            rw [hdv]
            simp only [Attrib.dflt]
            rw [ihx, hcond.1]
          · rw [if_neg hcond]
            rw [bindFields]
            simp only [Attrib.name, Fields.get_cons_self]
            rw [bindFields_skip rest n v (filterCompat E rest frest) hmem, ihx]

/-- The loop's residue only has declared keys. -/
theorem filterKeysAll (E : ExtRegistry) (A : AList) (fs : Fields)
    (hc : conformsFields E A fs = true) :
    ((filterCompat E A fs).keys.all fun k => A.names.contains k) = true := by
  rw [List.all_eq_true]
  intro k hk
  have hmem := filterCompat_keys E A fs k hk
  rw [conformsFields_keys E A fs hc] at hmem
  exact List.elem_eq_true_of_mem hmem

/-- Marshalling is the identity on values of a primitive catalog kind. -/
theorem marshalV_prim (E : ExtRegistry) (p : PrimTy) (v : Value)
    (h : primMatches p v = true) : marshalV E v = v := by
  cases p <;> cases v <;> simp_all [primMatches, marshalV]

/-- The reconciliation loop over one marshalled conforming instance
produces exactly the compatible residue. -/
theorem roundLoopAux (E : ExtRegistry) (hE : ExtGood E) (k : Nat)
    (IH : ∀ c, sizeOf c < k → ∀ fs, wfCls c = true →
      conformsFields E c.attribs fs = true →
      nullCompatFields E c.attribs fs = true →
      dictToAttrs E (marshalV E (Value.vinst c fs)) c = .ok (Value.vinst c fs)) :
    (A : AList) → (fs : Fields) → sizeOf A ≤ k →
    nodupKeys A.names = true → wfAList A = true →
    conformsFields E A fs = true → nullCompatFields E A fs = true →
    dictToAttrsLoop E A (marshalFields E A fs) = .ok (filterCompat E A fs)
  | .nil, .nil, _, _, _, _, _ => by
      simp [dictToAttrsLoop, marshalFields, filterCompat]
  | .nil, .cons _ _ _, _, _, _, hc, _ => by simp [conformsFields] at hc
  | .cons a rest, .nil, _, _, _, hc, _ => by
      cases a; simp [conformsFields] at hc
  | .cons (.mk aName aTy aD) rest, .cons n v frest, hsz, hnd, hwa, hc, hn => by
      simp only [conformsFields, Bool.and_eq_true, decide_eq_true_eq] at hc
      obtain ⟨⟨hcn, hcv⟩, hcr⟩ := hc
      subst hcn
      simp only [nodupKeys, AList.names, Attrib.name, Bool.and_eq_true,
        Bool.not_eq_true'] at hnd
      have hmem : n ∉ rest.names := by
        have := hnd.1; simp at this; exact this
      simp only [wfAList, Bool.and_eq_true] at hwa
      simp only [nullCompatFields, Bool.and_eq_true] at hn
      obtain ⟨⟨hn1, hn2⟩, hn3⟩ := hn
      have hszr : sizeOf rest ≤ k := by
        have h0 : sizeOf rest < sizeOf (AList.cons (Attrib.mk n aTy aD) rest) := by
          simp only [AList.cons.sizeOf_spec]; omega
        omega
      have ihloop := roundLoopAux E hE k IH rest frest hszr hnd.2 hwa.2 hcr hn3
      have htail : marshalFields E (AList.cons (Attrib.mk n aTy aD) rest) frest
          = marshalFields E rest frest := by
        apply marshalFields_congr
        intro m hm
        rw [conformsFields_keys E rest frest hcr] at hm
        apply AList.find_cons_ne
        simp only [Attrib.name]
        intro hx; rw [hx] at hmem; exact hmem hm
      have hfind : (AList.cons (Attrib.mk n aTy aD) rest).find n
          = some (Attrib.mk n aTy aD) := by
        simp [AList.find, Attrib.name]
      rw [marshalFields, hfind, htail]
      simp only [Attrib.type]
      cases hE2 : E aTy with
      | some e =>
          have hser := (hE.1 aTy e hE2).2 v
          have hdeser := (hE.1 aTy e hE2).1 v
          cases aTy with
          | attrsC c => rw [hE.2 c] at hE2; cases hE2
          | containerT c => simp [conformsV] at hcv
          | prim p =>
              rw [dictToAttrsLoop, dictStep]
              simp only [Fields.get_cons_self]
              rw [if_neg hser, hE2]
              simp only [Fields.hasKey_cons_self, Fields.set_cons_self,
                hdeser, eq_self_iff_true, if_true]
              rw [loopCommute E rest n v _ hmem, ihloop]
              rw [filterCompat, hE2]
              simp [Except.map]
          | ext en =>
              rw [dictToAttrsLoop, dictStep]
              simp only [Fields.get_cons_self]
              rw [if_neg hser, hE2]
              simp only [Fields.hasKey_cons_self, Fields.set_cons_self,
                hdeser, eq_self_iff_true, if_true]
              rw [loopCommute E rest n v _ hmem, ihloop]
              rw [filterCompat, hE2]
              simp [Except.map]
      | none =>
          by_cases hv : v = Value.vnull
          · subst hv
            have hmv : marshalV E Value.vnull = Value.vnull := by
              simp [marshalV]
            rw [hmv, dictToAttrsLoop, dictStep]
            simp only [Fields.get_cons_self, eq_self_iff_true, if_true]
            by_cases hd : aD = VOpt.noval
            · subst hd
              rw [if_neg (by simp)]
              show dictToAttrsLoop E rest _ = _
              rw [loopCommute E rest n Value.vnull _ hmem, ihloop]
              rw [filterCompat, hE2]
              simp [Except.map]
            · have hd2 : aD ≠ VOpt.noval := hd
              rw [if_pos hd2, Fields.del_cons_self]
              show dictToAttrsLoop E rest _ = _
              rw [ihloop]
              rw [filterCompat, hE2, if_pos ⟨rfl, hd2⟩]
          · cases aTy with
            | containerT c => simp [conformsV] at hcv
            | prim p =>
                simp only [conformsV, Bool.or_eq_true, decide_eq_true_eq] at hcv
                have hpm : primMatches p v = true := by
                  cases hcv with
                  | inl h0 => exact absurd h0 hv
                  | inr h0 => exact h0
                rw [marshalV_prim E p v hpm, dictToAttrsLoop, dictStep]
                simp only [Fields.get_cons_self]
                rw [if_neg hv, hE2]
                rw [if_neg (by simp [catalogTag])]
                show dictToAttrsLoop E rest _ = _
                rw [loopCommute E rest n v _ hmem, ihloop]
                rw [filterCompat, hE2, if_neg (fun hx => hv hx.1)]
                simp [Except.map]
            | ext en =>
                cases v with
                | vnull => exact absurd rfl hv
                | vext m p =>
                    simp only [conformsV, Bool.and_eq_true, decide_eq_true_eq] at hcv
                    rw [hE2] at hcv
                    simp at hcv
                | _ => simp [conformsV] at hcv
            | attrsC c =>
                obtain ⟨cN, cAs⟩ := c
                cases v with
                | vnull => exact absurd rfl hv
                | vinst cc fs₂ =>
                    simp only [conformsV, Bool.and_eq_true, decide_eq_true_eq] at hcv
                    obtain ⟨hcc, hcf⟩ := hcv
                    subst hcc
                    simp only [nullCompatV] at hn2
                    have hwf : wfCls (AttrsCls.mk cN cAs) = true := by
                      have := hwa.1
                      simpa [wfTy] using this
                    have hmv : marshalV E (Value.vinst (AttrsCls.mk cN cAs) fs₂)
                        = Value.vmap (marshalFields E cAs fs₂) := by
                      simp [marshalV]
                    have hsc : sizeOf (AttrsCls.mk cN cAs) < k := by
                      have h0 : sizeOf (AttrsCls.mk cN cAs)
                          < sizeOf (AList.cons
                              (Attrib.mk n (Ty.attrsC (AttrsCls.mk cN cAs)) aD)
                              rest) := by
                        simp only [AList.cons.sizeOf_spec, Attrib.mk.sizeOf_spec,
                          Ty.attrsC.sizeOf_spec]
                        omega
                      omega
                    have hIHc := IH (AttrsCls.mk cN cAs) hsc fs₂ hwf
                      (by simpa [AttrsCls.attribs] using hcf)
                      (by simpa [AttrsCls.attribs] using hn2)
                    rw [hmv] at hIHc
                    rw [dictToAttrsLoop, dictStep]
                    simp only [Fields.get_cons_self]
                    rw [hmv]
                    have hnn : Value.vmap (marshalFields E cAs fs₂)
                        ≠ Value.vnull := by simp
                    rw [if_neg hnn]
                    simp only [Fields.hasKey_cons_self, eq_self_iff_true,
                      if_true, hIHc, Fields.set_cons_self]
                    show dictToAttrsLoop E rest _ = _
                    rw [loopCommute E rest n _ _ hmem, ihloop]
                    rw [filterCompat, hE2, if_neg (fun hx => hv hx.1)]
                    simp [Except.map]
                | _ => simp [conformsV] at hcv

/-- Marshalling a conforming, null-compatible instance and reconciling the
resulting wire mapping against its own class reproduces the instance. -/
theorem roundCls (E : ExtRegistry) (hE : ExtGood E) (c : AttrsCls) :
    ∀ fs : Fields, wfCls c = true → conformsFields E c.attribs fs = true →
    nullCompatFields E c.attribs fs = true →
    dictToAttrs E (marshalV E (Value.vinst c fs)) c
      = .ok (Value.vinst c fs) := by
  have IH : ∀ c₂, sizeOf c₂ < sizeOf c → ∀ fs₂ : Fields,
      wfCls c₂ = true → conformsFields E c₂.attribs fs₂ = true →
      nullCompatFields E c₂.attribs fs₂ = true →
      dictToAttrs E (marshalV E (Value.vinst c₂ fs₂)) c₂
        = .ok (Value.vinst c₂ fs₂) :=
    fun c₂ h₂ => roundCls E hE c₂
  obtain ⟨cName, cAs⟩ := c
  intro fs hwf hcf hnc
  simp only [AttrsCls.attribs] at hcf hnc
  simp only [wfCls, Bool.and_eq_true] at hwf
  have hmv : marshalV E (Value.vinst (AttrsCls.mk cName cAs) fs)
      = Value.vmap (marshalFields E cAs fs) := by simp [marshalV]
  rw [hmv, dictToAttrs]
  have hszA : sizeOf cAs ≤ sizeOf (AttrsCls.mk cName cAs) := by
    simp only [AttrsCls.mk.sizeOf_spec]; omega
  have hloop := roundLoopAux E hE (sizeOf (AttrsCls.mk cName cAs)) IH cAs fs
    hszA hwf.1 hwf.2 hcf hnc
  rw [hloop]
  show mkInstance (AttrsCls.mk cName cAs) (filterCompat E cAs fs) = _
  rw [mkInstance, if_pos (filterKeysAll E cAs fs hcf),
      bindFilter E cAs fs hwf.1 hcf hnc]
termination_by sizeOf c

/-- The empty registry satisfies the extension contract. -/
theorem extGood_noExts : ExtGood noExts := by
  constructor
  · intro ty e h
    simp [noExts] at h
  · intro c
    rfl

/-! ## Claim theorems -/

/-- C1 (amended).  For every record type whose fields are built only from
primitives, registered-extension types and nested record types (no
containers), and every instance x of that type in which each field slot
(recursively) holding a null value is declared either without a default or
with default null, marshalling x and reconciling the resulting wire-value
tree against the same record type (the external codec treated as the
identity) yields a native instance equal to x.  The extensions are assumed
to deserialize what they serialize and to serialize to non-null wire values,
and to be registered for non-record types only. -/
theorem claim1_roundtrip (E : ExtRegistry) (c : AttrsCls) (fs : Fields)
    (hE : ExtGood E) (hwf : wfCls c = true)
    (hconf : conformsV E (Value.vinst c fs) (Ty.attrsC c) = true)
    (hnull : nullCompatV E (Value.vinst c fs) (Ty.attrsC c) = true) :
    dictToAttrs E (marshalV E (Value.vinst c fs)) c
      = .ok (Value.vinst c fs) := by
  obtain ⟨cN, cAs⟩ := c
  simp only [conformsV, Bool.and_eq_true, decide_eq_true_eq] at hconf
  simp only [nullCompatV] at hnull
  exact roundCls E hE (AttrsCls.mk cN cAs) fs hwf
    (by simpa [AttrsCls.attribs] using hconf.2)
    (by simpa [AttrsCls.attribs] using hnull)

/-- Witness for C1: the spec's example instance
`{sub_name: "foo", course_id: "bar"}` of `TestData` round-trips. -/
theorem claim1_roundtrip_witness :
    dictToAttrs noExts (marshalV noExts (Value.vinst tdCls
      (.cons "sub_name" (.vstr "foo")
        (.cons "course_id" (.vstr "bar") .nil)))) tdCls
    = .ok (Value.vinst tdCls (.cons "sub_name" (.vstr "foo")
        (.cons "course_id" (.vstr "bar") .nil))) :=
  claim1_roundtrip noExts tdCls
    (.cons "sub_name" (.vstr "foo") (.cons "course_id" (.vstr "bar") .nil))
    extGood_noExts
    (by simp [wfCls, tdCls, nodupKeys, wfAList, wfTy, AList.names, Attrib.name])
    (by simp [conformsV, tdCls, conformsFields, primMatches, Attrib.name, noExts])
    (by simp [nullCompatV, tdCls, nullCompatFields, Attrib.name])

/-- Counterexample to C1 as stated: the instance of
`Dflt {added_key: text = "default_value"}` holding the null value in its
defaulted field is a conforming instance, yet marshal followed by reconcile
produces the instance holding the default, which differs from the
original — the reconciler deletes null-valued defaulted keys so that the
constructor default applies. -/
theorem claim1_counterexample :
    conformsV noExts (Value.vinst dfltCls (.cons "added_key" Value.vnull .nil))
      (Ty.attrsC dfltCls) = true ∧
    dictToAttrs noExts (marshalV noExts (Value.vinst dfltCls
        (.cons "added_key" Value.vnull .nil))) dfltCls
      = .ok (Value.vinst dfltCls
          (.cons "added_key" (.vstr "default_value") .nil)) ∧
    Value.vinst dfltCls (.cons "added_key" (.vstr "default_value") .nil)
      ≠ Value.vinst dfltCls (.cons "added_key" Value.vnull .nil) := by
  refine ⟨?_, ?_, ?_⟩
  · simp [conformsV, dfltCls, conformsFields, primMatches]
  · simp [dfltCls, marshalV, marshalFields, AList.find, Attrib.name,
      Attrib.type, noExts, dictToAttrs, dictToAttrsLoop, dictStep,
      mkInstance, bindFields, Fields.get, Fields.set, Fields.del,
      Fields.hasKey, Fields.keys, AList.names, catalogTag, primTag,
      Attrib.dflt]
  · simp

theorem Fields.hasKey_set_ne : (d : Fields) → (m k : String) → (v : Value) →
    m ≠ k → (d.set m v).hasKey k = d.hasKey k
  | .nil, m, k, v, h => by simp [Fields.set, Fields.hasKey, h]
  | .cons n w r, m, k, v, h => by
      by_cases hnm : n = m
      · subst hnm; simp [Fields.set, Fields.hasKey]
      · simp [Fields.set, hnm, Fields.hasKey,
          Fields.hasKey_set_ne r m k v h]

theorem Fields.hasKey_del_ne : (d : Fields) → (m k : String) →
    m ≠ k → (d.del m).hasKey k = d.hasKey k
  | .nil, m, k, h => by simp [Fields.del]
  | .cons n w r, m, k, h => by
      by_cases hnm : n = m
      · subst hnm
        simp [Fields.del, Fields.hasKey, fun hc : n = k => h hc]
      · simp [Fields.del, hnm, Fields.hasKey, Fields.hasKey_del_ne r m k h]

theorem Fields.hasKey_iff_mem_keys : (d : Fields) → (k : String) →
    (d.hasKey k = true ↔ k ∈ d.keys)
  | .nil, k => by simp [Fields.hasKey, Fields.keys]
  | .cons n v r, k => by
      by_cases h : n = k
      · subst h; simp [Fields.hasKey, Fields.keys]
      · simp [Fields.hasKey, Fields.keys, h, Ne.symm h,
          Fields.hasKey_iff_mem_keys r k]

/-- One reconciliation step preserves the presence of every key with a
different name. -/
theorem stepPreservesOther (E : ExtRegistry) (a : Attrib) (data d : Fields)
    (k : String) (hk : a.name ≠ k) (h : dictStep E a data = .ok d) :
    d.hasKey k = data.hasKey k := by
  obtain ⟨aName, aTy, aD⟩ := a
  have hk2 : aName ≠ k := by simpa [Attrib.name] using hk
  rw [dictStep] at h
  repeat' split at h
  all_goals
    first
      | (cases h; rfl)
      | (cases h; exact Fields.hasKey_del_ne data aName k hk2)
      | (cases h; exact Fields.hasKey_set_ne data aName k _ hk2)
      | cases h

/-- The reconciliation loop preserves the presence of every key that is not
a declared attribute name. -/
theorem loopPreservesOther (E : ExtRegistry) : (A : AList) →
    (data d : Fields) → (k : String) → k ∉ A.names →
    dictToAttrsLoop E A data = .ok d → d.hasKey k = data.hasKey k
  | .nil, data, d, k, _, h => by
      rw [dictToAttrsLoop] at h; cases h; rfl
  | .cons a rest, data, d, k, hk, h => by
      have h1 : a.name ≠ k := by
        intro hc; exact hk (by simp [AList.names, hc])
      have h2 : k ∉ rest.names := by
        intro hc; exact hk (by simp [AList.names, hc])
      rw [dictToAttrsLoop] at h
      cases hs : dictStep E a data with
      | ok data₁ =>
          rw [hs] at h
          rw [loopPreservesOther E rest data₁ d k h2 h]
          exact stepPreservesOther E a data data₁ k h1 hs
      | error e => rw [hs] at h; cases h

/-- C2 (amended).  For every target record type and every wire-value map
containing a key not declared as a field of the target type, reconciliation
fails: the per-field loop ignores the undeclared key but leaves it in the
mapping, and the native constructor rejects the unexpected keyword argument
(so the result is an error, never an instance). -/
theorem claim2_extra_key (E : ExtRegistry) (c : AttrsCls) (data : Fields)
    (k : String) (hk : data.hasKey k = true)
    (hnot : k ∉ c.attribs.names) :
    ∃ err, dictToAttrs E (Value.vmap data) c = .error err := by
  obtain ⟨cN, cAs⟩ := c
  simp only [AttrsCls.attribs] at hnot
  rw [dictToAttrs]
  cases hl : dictToAttrsLoop E cAs data with
  | error e => exact ⟨e, rfl⟩
  | ok data₁ =>
      have hpk : data₁.hasKey k = true := by
        rw [loopPreservesOther E cAs data data₁ k hnot hl]; exact hk
      have hcond : ¬ ((data₁.keys.all fun k₂ => cAs.names.contains k₂) = true) := by
        intro hall
        rw [List.all_eq_true] at hall
        have hmemk : k ∈ data₁.keys :=
          (Fields.hasKey_iff_mem_keys data₁ k).mp hpk
        have h₂ := hall k hmemk
        simp at h₂
        exact hnot h₂
      refine ⟨BErr.unexpectedKeyword, ?_⟩
      show mkInstance (AttrsCls.mk cN cAs) data₁ = _
      rw [mkInstance, if_neg hcond]

/-- Witness for C2 (amended): a map with the undeclared key "extra" is
rejected when reconciled against `TestData`. -/
theorem claim2_extra_key_witness :
    ∃ err, dictToAttrs noExts (Value.vmap
      (.cons "sub_name" (.vstr "foo")
        (.cons "course_id" (.vstr "bar")
          (.cons "extra" (.vstr "x") .nil)))) tdCls = .error err :=
  claim2_extra_key noExts tdCls
    (.cons "sub_name" (.vstr "foo")
      (.cons "course_id" (.vstr "bar") (.cons "extra" (.vstr "x") .nil)))
    "extra"
    (by simp [Fields.hasKey])
    (by simp [tdCls, AttrsCls.attribs, AList.names, Attrib.name])

/-- The constructor model fails only with a missing-required-field error. -/
theorem bindFields_error : (A : AList) → (d : Fields) → (e : BErr) →
    bindFields A d = .error e → e = BErr.missingRequiredField
  | .nil, d, e, h => by rw [bindFields] at h; cases h
  | .cons a rest, d, e, h => by
      rw [bindFields] at h
      split at h
      · split at h
        · cases h
        · cases h
          exact bindFields_error rest d _ (by assumption)
      · split at h
        · split at h
          · cases h
          · cases h
            exact bindFields_error rest d _ (by assumption)
        · cases h; rfl

/-- One reconciliation step never raises the "Necessary key ... not found"
exception: the branch is guarded by the very membership test that the
enclosing branch has already established. -/
theorem stepNoNecessaryKey (E : ExtRegistry) (a : Attrib) (data : Fields)
    (IH : ∀ c', sizeOf c' < sizeOf a → ∀ v,
      dictToAttrs E v c' ≠ .error .necessaryKeyNotFound) :
    dictStep E a data ≠ .error .necessaryKeyNotFound := by
  obtain ⟨aName, aTy, aD⟩ := a
  intro h
  rw [dictStep] at h
  split at h
  · cases h
  · rename_i subData hg
    split at h
    · split at h <;> cases h
    · split at h
      · rename_i c
        split at h
        · split at h
          · cases h
          · cases h
            exact IH c
              (by simp only [Attrib.mk.sizeOf_spec, Ty.attrsC.sizeOf_spec]
                  omega)
              subData (by assumption)
        · cases h
      · split at h
        · split at h
          · cases h
          · rename_i hKfalse
            have hKtrue : data.hasKey aName = true := by
              rw [Fields.hasKey_eq_isSome, hg]; rfl
            exact hKfalse hKtrue
        · split at h <;> cases h

/-- The reconciliation loop never raises the "Necessary key ... not found"
exception. -/
theorem loopNoNecessaryKey (E : ExtRegistry) (k : Nat)
    (IH : ∀ c', sizeOf c' < k → ∀ v,
      dictToAttrs E v c' ≠ .error .necessaryKeyNotFound) :
    (A : AList) → (data : Fields) → sizeOf A ≤ k →
    dictToAttrsLoop E A data ≠ .error .necessaryKeyNotFound
  | .nil, data, _, h => by rw [dictToAttrsLoop] at h; cases h
  | .cons a rest, data, hsz, h => by
      have hsr : sizeOf rest ≤ k := by
        have : sizeOf rest < sizeOf (AList.cons a rest) := by
          simp only [AList.cons.sizeOf_spec]; omega
        omega
      rw [dictToAttrsLoop] at h
      split at h
      · rename_i data₁ hstep
        exact loopNoNecessaryKey E k IH rest data₁ hsr h
      · rename_i e hstep
        cases h
        have hsa : ∀ c', sizeOf c' < sizeOf a → ∀ v,
            dictToAttrs E v c' ≠ .error .necessaryKeyNotFound := by
          intro c' hc' v
          apply IH
          have : sizeOf a < sizeOf (AList.cons a rest) := by
            simp only [AList.cons.sizeOf_spec]; omega
          omega
        exact stepNoNecessaryKey E a data hsa hstep

/-- C10.  The error branch on the extension-deserialization path of
`dict_to_attrs` that raises "Necessary key: ... not found in data dict" is
unreachable: for every input value and target class, reconciliation never
produces that failure, because the inner membership test is evaluated on the
same unmodified mapping as the enclosing guard. -/
theorem claim10_unreachable (E : ExtRegistry) (c : AttrsCls) (v : Value) :
    dictToAttrs E v c ≠ .error .necessaryKeyNotFound := by
  obtain ⟨cN, cAs⟩ := c
  have IH : ∀ c', sizeOf c' < sizeOf (AttrsCls.mk cN cAs) → ∀ v',
      dictToAttrs E v' c' ≠ .error .necessaryKeyNotFound :=
    fun c' h' v' => claim10_unreachable E c' v'
  intro h
  cases v with
  | vmap data =>
      rw [dictToAttrs] at h
      split at h
      · rename_i data₁ hloop
        rw [mkInstance] at h
        split at h
        · split at h
          · cases h
          · rename_i e' he'
            cases h
            have := bindFields_error cAs data₁ _ he'
            cases this
        · cases h
      · rename_i e hloop
        cases h
        have hsz : sizeOf cAs ≤ sizeOf (AttrsCls.mk cN cAs) := by
          simp only [AttrsCls.mk.sizeOf_spec]; omega
        exact loopNoNecessaryKey E (sizeOf (AttrsCls.mk cN cAs)) IH cAs data
          hsz hloop
  | vnull => simp [dictToAttrs] at h
  | vstr s => simp [dictToAttrs] at h
  | vint n => simp [dictToAttrs] at h
  | vfloat l => simp [dictToAttrs] at h
  | vbool b => simp [dictToAttrs] at h
  | vbytes bs => simp [dictToAttrs] at h
  | vinst c₂ fs => simp [dictToAttrs] at h
  | vext n p => simp [dictToAttrs] at h
termination_by sizeOf c

/-! ## Schema-derivation lemmas -/

/-- The nullable wrapper produces a wrapped field exactly when a default is
declared (for a raw field without the null-default marker). -/
theorem wrap_isNullable (d : VOpt) (f : SField)
    (hf : f.hasNullDefault = false) :
    isNullableWrapped (applyDefaultWrap true d f) = decide (d ≠ VOpt.noval) := by
  by_cases hd : d = VOpt.noval
  · subst hd
    rw [applyDefaultWrap, if_neg (by simp)]
    simp [isNullableWrapped, hf]
  · rw [applyDefaultWrap, if_pos ⟨rfl, hd⟩]
    simp [isNullableWrapped, SField.hasNullDefault, SField.type, hd]

/-- A full record emission has the field name, the record named after the
class, and no null-default marker. -/
theorem recordFields_shape (E : ExtRegistry) (c : AttrsCls) (fn : String)
    (seen seen' : List String) (f : SField)
    (h : recordFieldsForAttrsClass E c fn seen = .ok (f, seen')) :
    ∃ flds, f = SField.mk fn (Schema.record c.name flds) false := by
  obtain ⟨cN, cAs⟩ := c
  rw [recordFieldsForAttrsClass] at h
  split at h
  · rename_i fs seen₁ hfold
    cases h
    refine ⟨fs, ?_⟩
    simp [AttrsCls.name]
  · cases h

/-- Every field emitted by `_get_object_fields` with `if_default=True` is
nullable-wrapped exactly when the attribute declares a default. -/
theorem getObjectFields_wrap (E : ExtRegistry) (n : String) (ty : Ty)
    (d : VOpt) (seen seen' : List String) (f : SField)
    (h : getObjectFields E n ty true d seen = .ok (f, seen')) :
    isNullableWrapped f = decide (d ≠ VOpt.noval) := by
  cases ty with
  | prim p =>
      simp only [getObjectFields, catalogTag] at h
      split at h
      · cases h; exact wrap_isNullable d _ rfl
      · split at h
        · cases h
        · cases h; exact wrap_isNullable d _ rfl
  | containerT ct =>
      simp only [getObjectFields, catalogTag] at h
      split at h
      · cases h; exact wrap_isNullable d _ rfl
      · cases ct <;> simp at h
  | ext en =>
      simp only [getObjectFields, catalogTag] at h
      split at h
      · cases h; exact wrap_isNullable d _ rfl
      · cases h
  | attrsC c =>
      simp only [getObjectFields, catalogTag] at h
      split at h
      · cases h; exact wrap_isNullable d _ rfl
      · split at h
        · cases h; exact wrap_isNullable d _ rfl
        · split at h
          · rename_i f₀ seen₀ hrf
            cases h
            obtain ⟨flds, hshape⟩ := recordFields_shape E _ n _ _ f₀ hrf
            rw [hshape]
            exact wrap_isNullable d _ rfl
          · cases h

/-- The attribute fold emits a wrap-aligned field list. -/
theorem foldAttribs_wrapAligned (E : ExtRegistry) : (A : AList) →
    (seen : List String) → (fs : SFields) → (seen' : List String) →
    foldAttribs E A seen = .ok (fs, seen') → wrapAligned A fs = true
  | .nil, seen, fs, seen', h => by
      rw [foldAttribs] at h
      cases h
      simp [wrapAligned]
  | .cons a rest, seen, fs, seen', h => by
      obtain ⟨aName, aTy, aD⟩ := a
      rw [foldAttribs] at h
      split at h
      · rename_i f₀ seen₁ hgof
        split at h
        · rename_i fs₂ seen₂ hfold
          cases h
          have hhead := getObjectFields_wrap E aName aTy aD seen seen₁ f₀ hgof
          have htail := foldAttribs_wrapAligned E rest seen₁ fs₂ seen' hfold
          simp [wrapAligned, hhead, htail]
        · cases h
      · cases h

/-- C3.  In the derived schema for an attrs class, a field's emitted type is
wrapped as the nullable union with a null default exactly when the source
attribute declares any default value (including null): the concrete default
value is discarded (only the null default marker is emitted), and fields
declaring no default are emitted without the union wrapper. -/
theorem claim3_nullable_iff (E : ExtRegistry) (c : AttrsCls) (fn : String)
    (seen seen' : List String) (f : SField)
    (h : recordFieldsForAttrsClass E c fn seen = .ok (f, seen')) :
    ∃ flds, f.type = Schema.record c.name flds
      ∧ wrapAligned c.attribs flds = true := by
  obtain ⟨cN, cAs⟩ := c
  rw [recordFieldsForAttrsClass] at h
  split at h
  · rename_i fs seen₂ hfold
    cases h
    refine ⟨fs, ?_, ?_⟩
    · simp [SField.type, AttrsCls.name]
    · simpa [AttrsCls.attribs] using
        foldAttribs_wrapAligned E cAs seen fs seen' hfold
  · cases h

/-- Witness for C3: deriving the schema of
`Req {sub_name: text, added_key: text = "default_value"}` wraps exactly the
defaulted field. -/
theorem claim3_nullable_iff_witness :
    ∃ flds, (SField.mk "data" (Schema.record "Req"
        (.cons (SField.mk "sub_name" (Schema.tag "string") false)
          (.cons (SField.mk "added_key"
            (Schema.union2 (Schema.tag "null") (Schema.tag "string")) true)
            .nil))) false).type
      = Schema.record reqCls.name flds
      ∧ wrapAligned reqCls.attribs flds = true :=
  claim3_nullable_iff noExts reqCls "data" [] [] _
    (by simp [reqCls, recordFieldsForAttrsClass, foldAttribs, getObjectFields,
      applyDefaultWrap, catalogTag, primTag, noExts, Attrib.name, Attrib.type,
      Attrib.dflt, SField.name, SField.type])

/-- The empty registry has flat fragments. -/
theorem fragFlat_noExts : FragFlat noExts := by
  intro ty e h
  simp [noExts] at h

/-- The nullable wrapper does not change the defined record names. -/
theorem definedNames_wrap (d : Bool) (df : VOpt) (f : SField) :
    definedNamesS (applyDefaultWrap d df f).type = definedNamesS f.type := by
  rw [applyDefaultWrap]
  split
  · simp [SField.type, definedNamesS]
  · rfl

/-- Stripping the wrapper of a wrapped record emission recovers the record. -/
theorem stripWrap_wrap_record (d : Bool) (df : VOpt) (n r : String)
    (flds : SFields) :
    stripWrap (applyDefaultWrap d df
      (SField.mk n (Schema.record r flds) false)) = Schema.record r flds := by
  rw [applyDefaultWrap]
  split <;> simp [stripWrap, SField.type]

/-- Stripping the wrapper of a wrapped name reference recovers the
reference. -/
theorem stripWrap_wrap_ref (d : Bool) (df : VOpt) (n r : String) :
    stripWrap (applyDefaultWrap d df
      (SField.mk n (Schema.ref r) false)) = Schema.ref r := by
  rw [applyDefaultWrap]
  split <;> simp [stripWrap, SField.type]

mutual
/-- Derivation invariant at the field level: the registered-name set only
grows, and the record names fully defined in the emitted type are pairwise
distinct, were unregistered on entry and are registered on exit. -/
theorem invGOF (E : ExtRegistry) (hFF : FragFlat E) :
    (n : String) → (ty : Ty) → (d : Bool) → (df : VOpt) →
    (seen : List String) → (f : SField) → (seen' : List String) →
    getObjectFields E n ty d df seen = .ok (f, seen') →
    ((∀ s, s ∈ seen → s ∈ seen') ∧
     (∀ x, x ∈ definedNamesS f.type → x ∉ seen ∧ x ∈ seen') ∧
     (definedNamesS f.type).Nodup)
  | n, ty, d, df, seen, f, seen', h => by
      cases ty with
      | prim p =>
          simp only [getObjectFields, catalogTag] at h
          split at h
          · rename_i e hEx
            cases h
            rw [definedNames_wrap, SField.type, hFF _ e hEx]
            exact ⟨fun s hs => hs, by simp, by simp⟩
          · split at h
            · cases h
            · cases h
              rw [definedNames_wrap, SField.type]
              exact ⟨fun s hs => hs, by simp [definedNamesS], by simp [definedNamesS]⟩
      | containerT ct =>
          simp only [getObjectFields, catalogTag] at h
          split at h
          · rename_i e hEx
            cases h
            rw [definedNames_wrap, SField.type, hFF _ e hEx]
            exact ⟨fun s hs => hs, by simp, by simp⟩
          · cases ct <;> simp at h
      | ext en =>
          simp only [getObjectFields, catalogTag] at h
          split at h
          · rename_i e hEx
            cases h
            rw [definedNames_wrap, SField.type, hFF _ e hEx]
            exact ⟨fun s hs => hs, by simp, by simp⟩
          · cases h
      | attrsC c =>
          simp only [getObjectFields, catalogTag] at h
          split at h
          · rename_i e hEx
            cases h
            rw [definedNames_wrap, SField.type, hFF _ e hEx]
            exact ⟨fun s hs => hs, by simp, by simp⟩
          · split at h
            · rename_i hcont
              cases h
              rw [definedNames_wrap, SField.type]
              exact ⟨fun s hs => hs, by simp [definedNamesS], by simp [definedNamesS]⟩
            · rename_i hcont
              split at h
              · rename_i f₀ seen₀ hrf
                cases h
                have hnc : c.name ∉ seen := by
                  intro hmm
                  exact hcont (List.elem_eq_true_of_mem hmm)
                obtain ⟨flds, hshape, hmono, hdef, hnd⟩ :=
                  invRF E hFF c n (c.name :: seen) f₀ seen' hrf
                rw [definedNames_wrap, hshape, SField.type]
                refine ⟨?_, ?_, ?_⟩
                · intro s hs
                  exact hmono s (List.mem_cons_of_mem _ hs)
                · intro x hx
                  rw [definedNamesS] at hx
                  rcases List.mem_cons.mp hx with hx | hx
                  · subst hx
                    exact ⟨hnc, hmono _ (List.mem_cons_self _ _)⟩
                  · obtain ⟨hx1, hx2⟩ := hdef x hx
                    exact ⟨fun hmm => hx1 (List.mem_cons_of_mem _ hmm), hx2⟩
                · rw [definedNamesS]
                  rw [List.nodup_cons]
                  refine ⟨?_, hnd⟩
                  intro hmm
                  exact (hdef _ hmm).1 (List.mem_cons_self _ _)
              · cases h

/-- Derivation invariant at the record level. -/
theorem invRF (E : ExtRegistry) (hFF : FragFlat E) :
    (c : AttrsCls) → (fn : String) → (seen : List String) → (f : SField) →
    (seen' : List String) →
    recordFieldsForAttrsClass E c fn seen = .ok (f, seen') →
    (∃ flds, f = SField.mk fn (Schema.record c.name flds) false ∧
     (∀ s, s ∈ seen → s ∈ seen') ∧
     (∀ x, x ∈ definedNamesSF flds → x ∉ seen ∧ x ∈ seen') ∧
     (definedNamesSF flds).Nodup)
  | c, fn, seen, f, seen', h => by
      obtain ⟨cN, cAs⟩ := c
      rw [recordFieldsForAttrsClass] at h
      split at h
      · rename_i fs seen₁ hfold
        cases h
        obtain ⟨hmono, hdef, hnd⟩ := invFold E hFF cAs seen fs seen' hfold
        exact ⟨fs, by simp [AttrsCls.name], hmono, hdef, hnd⟩
      · cases h

/-- Derivation invariant at the attribute-fold level. -/
theorem invFold (E : ExtRegistry) (hFF : FragFlat E) :
    (A : AList) → (seen : List String) → (fs : SFields) →
    (seen' : List String) →
    foldAttribs E A seen = .ok (fs, seen') →
    ((∀ s, s ∈ seen → s ∈ seen') ∧
     (∀ x, x ∈ definedNamesSF fs → x ∉ seen ∧ x ∈ seen') ∧
     (definedNamesSF fs).Nodup)
  | .nil, seen, fs, seen', h => by
      rw [foldAttribs] at h
      cases h
      exact ⟨fun s hs => hs, by simp [definedNamesSF], by simp [definedNamesSF]⟩
  | .cons a rest, seen, fs, seen', h => by
      obtain ⟨aName, aTy, aD⟩ := a
      rw [foldAttribs] at h
      split at h
      · rename_i f₀ seen₁ hgof
        split at h
        · rename_i fs₂ seen₂ hfold
          cases h
          obtain ⟨fn₀, ft₀, fb₀⟩ := f₀
          obtain ⟨hm₁, hd₁, hn₁⟩ :=
            invGOF E hFF aName aTy true aD seen (SField.mk fn₀ ft₀ fb₀)
              seen₁ hgof
          obtain ⟨hm₂, hd₂, hn₂⟩ := invFold E hFF rest seen₁ fs₂ seen' hfold
          simp only [SField.type] at hd₁ hn₁
          refine ⟨fun s hs => hm₂ s (hm₁ s hs), ?_, ?_⟩
          · intro x hx
            rw [definedNamesSF] at hx
            rcases List.mem_append.mp hx with hx | hx
            · obtain ⟨ha, hb⟩ := hd₁ x hx
              exact ⟨ha, hm₂ x hb⟩
            · obtain ⟨ha, hb⟩ := hd₂ x hx
              exact ⟨fun hmm => ha (hm₁ x hmm), hb⟩
          · rw [definedNamesSF, List.nodup_append]
            refine ⟨hn₁, hn₂, ?_⟩
            intro x hx hx₂
            exact (hd₂ x hx₂).1 ((hd₁ x hx).2)
        · cases h
      · cases h
end

/-- C4.  Within one schema derivation pass, for every nested attrs class
(taking the record path, i.e. extension-free): on first encounter the
class's name is registered and a full named record definition is emitted;
on every subsequent encounter only the bare name reference is emitted and
the registered-name set is unchanged; and in every successful emission the
fully defined record names are pairwise distinct and disjoint from the
names registered before the call — so no name is ever defined twice. -/
theorem claim4_name_dedup (E : ExtRegistry) (hFF : FragFlat E)
    (n : String) (c : AttrsCls) (d : Bool) (df : VOpt)
    (seen seen' : List String) (f : SField)
    (hE : E (Ty.attrsC c) = none)
    (h : getObjectFields E n (Ty.attrsC c) d df seen = .ok (f, seen')) :
    (c.name ∉ seen →
      (∃ flds, stripWrap f = Schema.record c.name flds) ∧ c.name ∈ seen') ∧
    (c.name ∈ seen →
      (stripWrap f = Schema.ref c.name ∧ seen' = seen)) ∧
    (definedNamesS f.type).Nodup ∧
    (∀ x, x ∈ definedNamesS f.type → x ∉ seen) := by
  obtain ⟨_, hdef, hnd⟩ := invGOF E hFF n (Ty.attrsC c) d df seen f seen' h
  refine ⟨?_, ?_, hnd, fun x hx => (hdef x hx).1⟩
  · intro hnc
    simp only [getObjectFields, catalogTag, hE] at h
    rw [if_neg (by
      intro hcc
      exact hnc (by simpa [List.elem_iff] using hcc))] at h
    split at h
    · rename_i f₀ seen₀ hrf
      cases h
      obtain ⟨flds, hshape, hmono, _, _⟩ :=
        invRF E hFF c n (c.name :: seen) f₀ seen' hrf
      rw [hshape]
      exact ⟨⟨flds, stripWrap_wrap_record d df n c.name flds⟩,
        hmono _ (List.mem_cons_self _ _)⟩
    · cases h
  · intro hcc
    simp only [getObjectFields, catalogTag, hE] at h
    rw [if_pos (List.elem_eq_true_of_mem hcc)] at h
    cases h
    exact ⟨stripWrap_wrap_ref d df n c.name, rfl⟩

/-- Witness for C4: a first encounter of `SubTestData` (empty seen set)
emits the full record definition and registers the name. -/
theorem claim4_name_dedup_witness :
    ("SubTestData" ∉ ([] : List String) →
      (∃ flds, stripWrap (SField.mk "first"
          (Schema.record "SubTestData"
            (.cons (SField.mk "sub_name" (Schema.tag "string") false) .nil))
          false) = Schema.record subCls.name flds) ∧
        subCls.name ∈ ["SubTestData"]) ∧
    (subCls.name ∈ ([] : List String) →
      (stripWrap (SField.mk "first"
          (Schema.record "SubTestData"
            (.cons (SField.mk "sub_name" (Schema.tag "string") false) .nil))
          false) = Schema.ref subCls.name ∧ ["SubTestData"] = [])) ∧
    (definedNamesS (SField.mk "first"
        (Schema.record "SubTestData"
          (.cons (SField.mk "sub_name" (Schema.tag "string") false) .nil))
        false).type).Nodup ∧
    (∀ x, x ∈ definedNamesS (SField.mk "first"
        (Schema.record "SubTestData"
          (.cons (SField.mk "sub_name" (Schema.tag "string") false) .nil))
        false).type → x ∉ ([] : List String)) := by
  have h := claim4_name_dedup noExts fragFlat_noExts "first" subCls false
    VOpt.noval [] ["SubTestData"]
    (SField.mk "first" (Schema.record "SubTestData"
      (.cons (SField.mk "sub_name" (Schema.tag "string") false) .nil)) false)
    rfl
    (by simp [subCls, getObjectFields, catalogTag, recordFieldsForAttrsClass,
      foldAttribs, applyDefaultWrap, noExts, Attrib.name, Attrib.type,
      Attrib.dflt, AttrsCls.name, AttrsCls.attribs, primTag])
  simpa [subCls, AttrsCls.name] using h

/-- C6.  Schema derivation for a field whose declared type is a bare
container (list, mapped to "array"; dict, mapped to raw "record") with no
registered extension fails with the container rejection ("item type for
container object not specified"); container field types are never supported
without an extension. -/
theorem claim6_container (E : ExtRegistry) (n : String) (ct : ContainerTy)
    (d : Bool) (df : VOpt) (seen : List String)
    (hE : E (Ty.containerT ct) = none) :
    getObjectFields E n (Ty.containerT ct) d df seen
      = .error .containerError := by
  cases ct <;> simp [getObjectFields, catalogTag, hE]

/-- Witness for C6: a bare list-typed field is rejected. -/
theorem claim6_container_witness :
    getObjectFields noExts "items" (Ty.containerT .list) true VOpt.noval []
      = .error .containerError :=
  claim6_container noExts "items" ContainerTy.list true VOpt.noval [] rfl

mutual
/-- Classes in a type tree are smaller than the tree. -/
theorem sizeTy : (ty : Ty) → ∀ dcl ∈ classesInTy ty, sizeOf dcl < sizeOf ty
  | .prim p, dcl, hmem => by simp [classesInTy] at hmem
  | .containerT ct, dcl, hmem => by simp [classesInTy] at hmem
  | .ext en, dcl, hmem => by simp [classesInTy] at hmem
  | .attrsC c, dcl, hmem => by
      rw [classesInTy] at hmem
      have := sizeCls c dcl hmem
      simp only [Ty.attrsC.sizeOf_spec]
      omega

/-- Classes in a class subtree are no larger than the class. -/
theorem sizeCls : (c : AttrsCls) → ∀ dcl ∈ classesInCls c,
    sizeOf dcl ≤ sizeOf c
  | .mk nm as, dcl, hmem => by
      rw [classesInCls] at hmem
      rcases List.mem_cons.mp hmem with h | h
      · subst h; exact le_refl _
      · have := sizeAList as dcl h
        simp only [AttrsCls.mk.sizeOf_spec]
        omega

/-- Classes below an attribute list are smaller than the list. -/
theorem sizeAList : (as : AList) → ∀ dcl ∈ classesInAList as,
    sizeOf dcl < sizeOf as
  | .nil, dcl, hmem => by simp [classesInAList] at hmem
  | .cons (.mk aN aTy aD) rest, dcl, hmem => by
      rw [classesInAList] at hmem
      rcases List.mem_append.mp hmem with h | h
      · have := sizeTy aTy dcl h
        simp only [AList.cons.sizeOf_spec, Attrib.mk.sizeOf_spec]
        omega
      · have := sizeAList rest dcl h
        simp only [AList.cons.sizeOf_spec]
        omega
end

/-- A successful per-field derivation means the field type is supported. -/
theorem gofSupported (E : ExtRegistry) (n : String) (ty : Ty) (d : Bool)
    (df : VOpt) (seen : List String) (f : SField) (seen' : List String)
    (h : getObjectFields E n ty d df seen = .ok (f, seen')) :
    supportedField E ty = true := by
  cases ty with
  | prim p => simp [supportedField]
  | attrsC c => simp [supportedField]
  | containerT ct =>
      simp only [getObjectFields, catalogTag] at h
      cases hE : E (Ty.containerT ct) with
      | some e => simp [supportedField, hE]
      | none => rw [hE] at h; cases ct <;> simp at h
  | ext en =>
      simp only [getObjectFields, catalogTag] at h
      cases hE : E (Ty.ext en) with
      | some e => simp [supportedField, hE]
      | none => rw [hE] at h; cases h

/-- A successful attribute fold means every direct field type is
supported. -/
theorem foldOkA (E : ExtRegistry) : (A : AList) → (seen : List String) →
    (fs : SFields) → (seen' : List String) →
    foldAttribs E A seen = .ok (fs, seen') → okAList E A = true
  | .nil, seen, fs, seen', h => by simp [okAList]
  | .cons a rest, seen, fs, seen', h => by
      obtain ⟨aName, aTy, aD⟩ := a
      rw [foldAttribs] at h
      split at h
      · rename_i f₀ seen₁ hgof
        split at h
        · rename_i fs₂ seen₂ hfold
          simp [okAList, gofSupported E aName aTy true aD seen f₀ seen₁ hgof,
            foldOkA E rest seen₁ fs₂ seen₂ hfold]
        · cases h
      · cases h

/-- A field whose type is neither extension-backed nor catalogued nor
record-shaped falsifies the direct supportedness of its class. -/
theorem okAList_false_of_bad (E : ExtRegistry) : (as : AList) →
    (a : Attrib) → as.mem a → directUnsupported E a.type = true →
    okAList E as = false
  | .nil, a, hmem, hbad => by simp [AList.mem] at hmem
  | .cons (.mk bN bTy bD) rest, a, hmem, hbad => by
      rw [AList.mem] at hmem
      cases hmem with
      | inl h =>
          subst h
          simp only [Attrib.type] at hbad
          have hsup : supportedField E bTy = false := by
            cases bTy <;> simp_all [directUnsupported, supportedField]
          simp [okAList, hsup]
      | inr h =>
          simp [okAList, okAList_false_of_bad E rest a h hbad]

/-- A successful record emission certifies the class's direct fields. -/
theorem rfOkA (E : ExtRegistry) (c : AttrsCls) (fn : String)
    (seen : List String) (f : SField) (seen' : List String)
    (h : recordFieldsForAttrsClass E c fn seen = .ok (f, seen')) :
    okClass E c = true := by
  obtain ⟨cN, cAs⟩ := c
  rw [recordFieldsForAttrsClass] at h
  split at h
  · rename_i fs seen₁ hfold
    simpa [okClass] using foldOkA E cAs seen fs seen₁ hfold
  · cases h

mutual
/-- Derivation success certifies every class in the visited type tree:
registered names only name classes whose whole subtree has supported direct
fields, except the pending chain P of classes whose expansion is in
progress — and a pending name cannot recur inside its own subtree, because
the class graph is a finite tree. -/
theorem okGOF (E : ExtRegistry) (U : List AttrsCls) (hInj : InjNames U)
    (hEA : ∀ c, E (Ty.attrsC c) = none) :
    (n : String) → (ty : Ty) → (d : Bool) → (df : VOpt) →
    (seen P : List String) → (f : SField) → (seen' : List String) →
    (∀ dcl, dcl ∈ classesInTy ty → dcl ∈ U) →
    (∀ nm, nm ∈ P → ∀ c, c ∈ U → AttrsCls.name c = nm →
       ∀ dcl, dcl ∈ classesInTy ty → sizeOf dcl < sizeOf c) →
    (∀ nm, nm ∈ seen → nm ∈ P ∨ (∀ c, c ∈ U → AttrsCls.name c = nm →
       ∀ dcl, dcl ∈ classesInCls c → okClass E dcl = true)) →
    getObjectFields E n ty d df seen = .ok (f, seen') →
    ((∀ s, s ∈ seen → s ∈ seen') ∧
     (∀ nm, nm ∈ seen' → nm ∈ P ∨ (∀ c, c ∈ U → AttrsCls.name c = nm →
        ∀ dcl, dcl ∈ classesInCls c → okClass E dcl = true)) ∧
     (∀ dcl, dcl ∈ classesInTy ty → okClass E dcl = true))
  | n, ty, d, df, seen, P, f, seen', hU, hP, hSeen, h => by
      cases ty with
      | prim p =>
          simp only [getObjectFields, catalogTag] at h
          split at h
          · cases h
            exact ⟨fun s hs => hs, hSeen, by simp [classesInTy]⟩
          · split at h
            · cases h
            · cases h
              exact ⟨fun s hs => hs, hSeen, by simp [classesInTy]⟩
      | containerT ct =>
          simp only [getObjectFields, catalogTag] at h
          split at h
          · cases h
            exact ⟨fun s hs => hs, hSeen, by simp [classesInTy]⟩
          · cases ct <;> simp at h
      | ext en =>
          simp only [getObjectFields, catalogTag] at h
          split at h
          · cases h
            exact ⟨fun s hs => hs, hSeen, by simp [classesInTy]⟩
          · cases h
      | attrsC c =>
          obtain ⟨cN, cAs⟩ := c
          rw [getObjectFields] at h
          rw [hEA (AttrsCls.mk cN cAs)] at h
          simp only [catalogTag] at h
          have hcU : AttrsCls.mk cN cAs ∈ U := hU (AttrsCls.mk cN cAs) (by
            rw [classesInTy, classesInCls]
            exact List.mem_cons_self _ _)
          split at h
          · -- name already registered: bare reference, set unchanged
            rename_i hcc
            cases h
            have hmem : (AttrsCls.mk cN cAs).name ∈ seen := by
              simpa [List.elem_iff] using hcc
            refine ⟨fun s hs => hs, hSeen, ?_⟩
            rcases hSeen (AttrsCls.mk cN cAs).name hmem with hpend | hok
            · exfalso
              have := hP (AttrsCls.mk cN cAs).name hpend
                (AttrsCls.mk cN cAs) hcU rfl (AttrsCls.mk cN cAs)
                (by rw [classesInTy, classesInCls]; exact List.mem_cons_self _ _)
              omega
            · intro dcl hdcl
              rw [classesInTy] at hdcl
              exact hok (AttrsCls.mk cN cAs) hcU rfl dcl hdcl
          · -- first encounter: expand under the extended pending chain
            rename_i hcc
            split at h
            · rename_i f₀ seen₂ hrf
              cases h
              have hUsub : ∀ dcl, dcl ∈ classesInAList cAs → dcl ∈ U := by
                intro dcl hdcl
                exact hU dcl (by
                  rw [classesInTy, classesInCls]
                  exact List.mem_cons_of_mem _ hdcl)
              have hP₁ : ∀ nm, nm ∈ (AttrsCls.mk cN cAs).name :: P →
                  ∀ cc, cc ∈ U → AttrsCls.name cc = nm →
                  ∀ dcl, dcl ∈ classesInAList cAs → sizeOf dcl < sizeOf cc := by
                intro nm hnm cc hccU hccn dcl hdcl
                rcases List.mem_cons.mp hnm with hnm | hnm
                · have hcceq : cc = AttrsCls.mk cN cAs := by
                    apply hInj cc hccU _ hcU
                    rw [hccn, hnm]
                  subst hcceq
                  have := sizeAList cAs dcl hdcl
                  simp only [AttrsCls.mk.sizeOf_spec]
                  omega
                · exact hP nm hnm cc hccU hccn dcl (by
                    rw [classesInTy, classesInCls]
                    exact List.mem_cons_of_mem _ hdcl)
              have hSeen₁ : ∀ nm, nm ∈ (AttrsCls.mk cN cAs).name :: seen →
                  nm ∈ (AttrsCls.mk cN cAs).name :: P ∨
                  (∀ cc, cc ∈ U → AttrsCls.name cc = nm →
                    ∀ dcl, dcl ∈ classesInCls cc → okClass E dcl = true) := by
                intro nm hnm
                rcases List.mem_cons.mp hnm with hnm | hnm
                · exact Or.inl (by rw [hnm]; exact List.mem_cons_self _ _)
                · rcases hSeen nm hnm with hp | hok
                  · exact Or.inl (List.mem_cons_of_mem _ hp)
                  · exact Or.inr hok
              obtain ⟨hm₁, hS₁, hok₁⟩ := okRF E U hInj hEA (AttrsCls.mk cN cAs)
                n ((AttrsCls.mk cN cAs).name :: seen)
                ((AttrsCls.mk cN cAs).name :: P) f₀ seen' hUsub hP₁ hSeen₁ hrf
              have hokc : okClass E (AttrsCls.mk cN cAs) = true := by
                simpa [okClass] using rfOkA E (AttrsCls.mk cN cAs) n _ f₀ seen' hrf
              have hclause : ∀ cc, cc ∈ U →
                  AttrsCls.name cc = (AttrsCls.mk cN cAs).name →
                  ∀ dcl, dcl ∈ classesInCls cc → okClass E dcl = true := by
                intro cc hccU hccn dcl hdcl
                have hcceq : cc = AttrsCls.mk cN cAs := hInj cc hccU _ hcU hccn
                subst hcceq
                rw [classesInCls] at hdcl
                rcases List.mem_cons.mp hdcl with hdcl | hdcl
                · rw [hdcl]; exact hokc
                · exact hok₁ dcl hdcl
              refine ⟨?_, ?_, ?_⟩
              · intro s hs
                exact hm₁ s (List.mem_cons_of_mem _ hs)
              · intro nm hnm
                rcases hS₁ nm hnm with hp | hok
                · rcases List.mem_cons.mp hp with hp | hp
                  · exact Or.inr (by rw [hp]; exact hclause)
                  · exact Or.inl hp
                · exact Or.inr hok
              · intro dcl hdcl
                rw [classesInTy] at hdcl
                exact hclause (AttrsCls.mk cN cAs) hcU rfl dcl hdcl
            · cases h

/-- Derivation success at the record level. -/
theorem okRF (E : ExtRegistry) (U : List AttrsCls) (hInj : InjNames U)
    (hEA : ∀ c, E (Ty.attrsC c) = none) :
    (c : AttrsCls) → (fn : String) → (seen P : List String) → (f : SField) →
    (seen' : List String) →
    (∀ dcl, dcl ∈ classesInAList c.attribs → dcl ∈ U) →
    (∀ nm, nm ∈ P → ∀ cc, cc ∈ U → AttrsCls.name cc = nm →
       ∀ dcl, dcl ∈ classesInAList c.attribs → sizeOf dcl < sizeOf cc) →
    (∀ nm, nm ∈ seen → nm ∈ P ∨ (∀ cc, cc ∈ U → AttrsCls.name cc = nm →
       ∀ dcl, dcl ∈ classesInCls cc → okClass E dcl = true)) →
    recordFieldsForAttrsClass E c fn seen = .ok (f, seen') →
    ((∀ s, s ∈ seen → s ∈ seen') ∧
     (∀ nm, nm ∈ seen' → nm ∈ P ∨ (∀ cc, cc ∈ U → AttrsCls.name cc = nm →
        ∀ dcl, dcl ∈ classesInCls cc → okClass E dcl = true)) ∧
     (∀ dcl, dcl ∈ classesInAList c.attribs → okClass E dcl = true))
  | c, fn, seen, P, f, seen', hU, hP, hSeen, h => by
      obtain ⟨cN, cAs⟩ := c
      simp only [AttrsCls.attribs] at hU hP ⊢
      rw [recordFieldsForAttrsClass] at h
      split at h
      · rename_i fs seen₁ hfold
        cases h
        exact okFold E U hInj hEA cAs seen P fs seen' hU hP hSeen hfold
      · cases h

/-- Derivation success at the attribute-fold level. -/
theorem okFold (E : ExtRegistry) (U : List AttrsCls) (hInj : InjNames U)
    (hEA : ∀ c, E (Ty.attrsC c) = none) :
    (A : AList) → (seen P : List String) → (fs : SFields) →
    (seen' : List String) →
    (∀ dcl, dcl ∈ classesInAList A → dcl ∈ U) →
    (∀ nm, nm ∈ P → ∀ cc, cc ∈ U → AttrsCls.name cc = nm →
       ∀ dcl, dcl ∈ classesInAList A → sizeOf dcl < sizeOf cc) →
    (∀ nm, nm ∈ seen → nm ∈ P ∨ (∀ cc, cc ∈ U → AttrsCls.name cc = nm →
       ∀ dcl, dcl ∈ classesInCls cc → okClass E dcl = true)) →
    foldAttribs E A seen = .ok (fs, seen') →
    ((∀ s, s ∈ seen → s ∈ seen') ∧
     (∀ nm, nm ∈ seen' → nm ∈ P ∨ (∀ cc, cc ∈ U → AttrsCls.name cc = nm →
        ∀ dcl, dcl ∈ classesInCls cc → okClass E dcl = true)) ∧
     (∀ dcl, dcl ∈ classesInAList A → okClass E dcl = true))
  | .nil, seen, P, fs, seen', hU, hP, hSeen, h => by
      rw [foldAttribs] at h
      cases h
      exact ⟨fun s hs => hs, hSeen, by simp [classesInAList]⟩
  | .cons a rest, seen, P, fs, seen', hU, hP, hSeen, h => by
      obtain ⟨aName, aTy, aD⟩ := a
      rw [foldAttribs] at h
      split at h
      · rename_i f₀ seen₁ hgof
        split at h
        · rename_i fs₂ seen₂ hfold
          cases h
          have hUa : ∀ dcl, dcl ∈ classesInTy aTy → dcl ∈ U := by
            intro dcl hdcl
            exact hU dcl (by
              rw [classesInAList]
              exact List.mem_append.mpr (Or.inl hdcl))
          have hPa : ∀ nm, nm ∈ P → ∀ cc, cc ∈ U → AttrsCls.name cc = nm →
              ∀ dcl, dcl ∈ classesInTy aTy → sizeOf dcl < sizeOf cc := by
            intro nm hnm cc hccU hccn dcl hdcl
            exact hP nm hnm cc hccU hccn dcl (by
              rw [classesInAList]
              exact List.mem_append.mpr (Or.inl hdcl))
          obtain ⟨hm₁, hS₁, hok₁⟩ := okGOF E U hInj hEA aName aTy true aD
            seen P f₀ seen₁ hUa hPa hSeen hgof
          have hUr : ∀ dcl, dcl ∈ classesInAList rest → dcl ∈ U := by
            intro dcl hdcl
            exact hU dcl (by
              rw [classesInAList]
              exact List.mem_append.mpr (Or.inr hdcl))
          have hPr : ∀ nm, nm ∈ P → ∀ cc, cc ∈ U → AttrsCls.name cc = nm →
              ∀ dcl, dcl ∈ classesInAList rest → sizeOf dcl < sizeOf cc := by
            intro nm hnm cc hccU hccn dcl hdcl
            exact hP nm hnm cc hccU hccn dcl (by
              rw [classesInAList]
              exact List.mem_append.mpr (Or.inr hdcl))
          obtain ⟨hm₂, hS₂, hok₂⟩ := okFold E U hInj hEA rest seen₁ P fs₂
            seen' hUr hPr hS₁ hfold
          refine ⟨fun s hs => hm₂ s (hm₁ s hs), hS₂, ?_⟩
          intro dcl hdcl
          rw [classesInAList] at hdcl
          rcases List.mem_append.mp hdcl with hdcl | hdcl
          · exact hok₁ dcl hdcl
          · exact hok₂ dcl hdcl
        · cases h
      · cases h
end

mutual
/-- Per-field derivation fails only with the unsupported-type error or,
when the tree holds an unextended container field, the container error. -/
theorem errGOF (E : ExtRegistry) :
    (n : String) → (ty : Ty) → (d : Bool) → (df : VOpt) →
    (seen : List String) → (e : BErr) →
    getObjectFields E n ty d df seen = .error e →
    (e = .unsupportedType ∨
      (e = .containerError ∧ unextContainerTy E ty = true))
  | n, ty, d, df, seen, e, h => by
      cases ty with
      | prim p =>
          cases hE : E (Ty.prim p) with
          | some ex => simp [getObjectFields, hE] at h
          | none =>
              cases p <;>
                simp [getObjectFields, catalogTag, primTag, hE] at h
      | containerT ct =>
          cases hE : E (Ty.containerT ct) with
          | some ex => simp [getObjectFields, hE] at h
          | none =>
              cases ct <;>
                (simp [getObjectFields, catalogTag, hE] at h
                 subst h
                 exact Or.inr ⟨rfl, by simp [unextContainerTy, hE]⟩)
      | ext en =>
          cases hE : E (Ty.ext en) with
          | some ex => simp [getObjectFields, hE] at h
          | none =>
              simp [getObjectFields, catalogTag, hE] at h
              subst h
              exact Or.inl rfl
      | attrsC c =>
          obtain ⟨cN, cAs⟩ := c
          cases hE : E (Ty.attrsC (AttrsCls.mk cN cAs)) with
          | some ex => simp [getObjectFields, hE] at h
          | none =>
              rw [getObjectFields, hE] at h
              simp only [catalogTag] at h
              split at h
              · cases h
              · split at h
                · cases h
                · rename_i e₂ hrf
                  cases h
                  rcases errRF E (AttrsCls.mk cN cAs) n _ _ hrf with h1 | ⟨h1, h2⟩
                  · exact Or.inl h1
                  · exact Or.inr ⟨h1, by simpa [unextContainerTy] using h2⟩

/-- Record-level error classification. -/
theorem errRF (E : ExtRegistry) :
    (c : AttrsCls) → (fn : String) → (seen : List String) → (e : BErr) →
    recordFieldsForAttrsClass E c fn seen = .error e →
    (e = .unsupportedType ∨
      (e = .containerError ∧ unextContainerCls E c = true))
  | c, fn, seen, e, h => by
      obtain ⟨cN, cAs⟩ := c
      rw [recordFieldsForAttrsClass] at h
      split at h
      · cases h
      · rename_i e₂ hfold
        cases h
        rcases errFold E cAs seen _ hfold with h1 | ⟨h1, h2⟩
        · exact Or.inl h1
        · exact Or.inr ⟨h1, by simpa [unextContainerCls] using h2⟩

/-- Fold-level error classification. -/
theorem errFold (E : ExtRegistry) :
    (A : AList) → (seen : List String) → (e : BErr) →
    foldAttribs E A seen = .error e →
    (e = .unsupportedType ∨
      (e = .containerError ∧ unextContainerAList E A = true))
  | .nil, seen, e, h => by rw [foldAttribs] at h; cases h
  | .cons a rest, seen, e, h => by
      obtain ⟨aName, aTy, aD⟩ := a
      rw [foldAttribs] at h
      split at h
      · rename_i f₀ seen₁ hgof
        split at h
        · cases h
        · rename_i e₂ hfold
          cases h
          rcases errFold E rest seen₁ _ hfold with h1 | ⟨h1, h2⟩
          · exact Or.inl h1
          · refine Or.inr ⟨h1, ?_⟩
            rw [unextContainerAList, h2]
            simp
      · rename_i e₂ hgof
        cases h
        rcases errGOF E aName aTy true aD seen _ hgof with h1 | ⟨h1, h2⟩
        · exact Or.inl h1
        · refine Or.inr ⟨h1, ?_⟩
          rw [unextContainerAList, h2]
          simp
end

/-- C5.  If any class anywhere in the record-type tree has a field whose
type has no registered extension, no primitive-catalog mapping and no
record-shaped introspection, then schema derivation fails with
`UnsupportedType`, and no (partial) schema is produced.  Hypotheses: class
names determine classes within the tree (the soundness condition of the
name-keyed deduplication), extensions are registered for non-record types
only, and the tree contains no unextended bare-container field (whose
distinct rejection is claim C6's subject). -/
theorem claim5_unsupported (E : ExtRegistry) (cls : AttrsCls)
    (hInj : InjNames (classesInCls cls))
    (hEA : ∀ c, E (Ty.attrsC c) = none)
    (hbad : ∃ dcl, dcl ∈ classesInCls cls ∧
      ∃ a, dcl.attribs.mem a ∧ directUnsupported E a.type = true)
    (hnc : unextContainerCls E cls = false) :
    attrsToAvroSchema E cls = .error .unsupportedType := by
  obtain ⟨cN, cAs⟩ := cls
  cases hrf : recordFieldsForAttrsClass E (AttrsCls.mk cN cAs) "data" [] with
  | ok p =>
      exfalso
      obtain ⟨df, seen₁⟩ := p
      have hU : ∀ dcl, dcl ∈ classesInAList (AttrsCls.mk cN cAs).attribs →
          dcl ∈ classesInCls (AttrsCls.mk cN cAs) := by
        intro dcl hdcl
        rw [classesInCls]
        exact List.mem_cons_of_mem _ (by simpa [AttrsCls.attribs] using hdcl)
      obtain ⟨_, _, hok⟩ := okRF E (classesInCls (AttrsCls.mk cN cAs)) hInj
        hEA (AttrsCls.mk cN cAs) "data" [] [] df seen₁ hU
        (by intro nm hnm; simp at hnm)
        (by intro nm hnm; simp at hnm)
        hrf
      have hokTop : okClass E (AttrsCls.mk cN cAs) = true :=
        rfOkA E (AttrsCls.mk cN cAs) "data" [] df seen₁ hrf
      obtain ⟨dcl, hdclMem, a, haMem, haBad⟩ := hbad
      have hdclOk : okClass E dcl = true := by
        rw [classesInCls] at hdclMem
        rcases List.mem_cons.mp hdclMem with hd | hd
        · rw [hd]; exact hokTop
        · exact hok dcl (by simpa [AttrsCls.attribs] using hd)
      obtain ⟨dN, dAs⟩ := dcl
      have hfalse : okAList E dAs = false :=
        okAList_false_of_bad E dAs a (by simpa [AttrsCls.attribs] using haMem)
          haBad
      rw [okClass, hfalse] at hdclOk
      cases hdclOk
  | error e =>
      have he : e = BErr.unsupportedType := by
        rcases errRF E (AttrsCls.mk cN cAs) "data" [] e hrf with h1 | ⟨h1, h2⟩
        · exact h1
        · rw [hnc] at h2; cases h2
      subst he
      rw [attrsToAvroSchema, hrf]

/-- Witness for C5: nesting a class with an unextended custom-typed field
aborts the whole derivation with the unsupported-type failure. -/
theorem claim5_unsupported_witness :
    attrsToAvroSchema noExts nestedBadCls = .error .unsupportedType :=
  claim5_unsupported noExts nestedBadCls
    (by
      intro c₁ h₁ c₂ h₂ hname
      simp [nestedBadCls, badCls, classesInCls, classesInAList,
        classesInTy] at h₁ h₂
      rcases h₁ with rfl | rfl <;> rcases h₂ with rfl | rfl <;>
        first
          | rfl
          | simp [AttrsCls.name] at hname)
    (fun c => rfl)
    ⟨badCls,
      by simp [nestedBadCls, badCls, classesInCls, classesInAList, classesInTy],
      (AvroBridge.Attrib.mk "unextended" (Ty.ext "UnExtendedClass") VOpt.noval),
      by simp [badCls, AttrsCls.attribs, AList.mem],
      by simp [directUnsupported, Attrib.type, noExts]⟩
    (by simp [nestedBadCls, badCls, unextContainerCls, unextContainerAList,
      unextContainerTy])

theorem Fields.get_set_ne : (d : Fields) → (m k : String) → (v : Value) →
    m ≠ k → (d.set m v).get k = d.get k
  | .nil, m, k, v, h => by simp [Fields.set, Fields.get, h]
  | .cons n w r, m, k, v, h => by
      by_cases hnm : n = m
      · subst hnm
        simp [Fields.set, Fields.get, fun hc : n = k => h hc]
      · simp [Fields.set, hnm, Fields.get, Fields.get_set_ne r m k v h]

theorem Fields.get_del_ne : (d : Fields) → (m k : String) →
    m ≠ k → (d.del m).get k = d.get k
  | .nil, m, k, h => by simp [Fields.del]
  | .cons n w r, m, k, h => by
      by_cases hnm : n = m
      · subst hnm
        simp [Fields.del, Fields.get, fun hc : n = k => h hc]
      · simp [Fields.del, hnm, Fields.get, Fields.get_del_ne r m k h]

theorem Fields.keys_del : (d : Fields) → (k : String) →
    (d.del k).keys = d.keys.erase k
  | .nil, k => by simp [Fields.del, Fields.keys]
  | .cons n w r, k => by
      by_cases hnk : n = k
      · subst hnk
        simp [Fields.del, Fields.keys, List.erase_cons_head]
      · rw [Fields.del, if_neg hnk, Fields.keys, Fields.keys,
          Fields.keys_del r k, List.erase_cons_tail]
        simp [hnk]

theorem Fields.hasKey_del_imp : (d : Fields) → (m k : String) →
    (d.del m).hasKey k = true → d.hasKey k = true
  | .nil, m, k, h => by rw [Fields.del] at h; exact h
  | .cons n w r, m, k, h => by
      by_cases hnm : n = m
      · subst hnm
        rw [Fields.del, if_pos rfl] at h
        rw [Fields.hasKey]
        simp [h]
      · rw [Fields.del, if_neg hnm] at h
        rw [Fields.hasKey] at h ⊢
        rcases Bool.or_eq_true _ _ |>.mp h with h₂ | h₂
        · simp [h₂]
        · simp [Fields.hasKey_del_imp r m k h₂]

/-- One reconciliation step never introduces a key. -/
theorem stepSubset (E : ExtRegistry) (a : Attrib) (data d : Fields)
    (h : dictStep E a data = .ok d) :
    ∀ kk, d.hasKey kk = true → data.hasKey kk = true := by
  obtain ⟨aName, aTy, aD⟩ := a
  intro kk hkk
  rw [dictStep] at h
  repeat' split at h
  all_goals
    first
      | (cases h; exact hkk)
      | (cases h; exact Fields.hasKey_del_imp data aName kk hkk)
      | (cases h
         by_cases hne : aName = kk
         · subst hne; assumption
         · rw [Fields.hasKey_set_ne data aName kk _ hne] at hkk; exact hkk)
      | cases h

/-- One reconciliation step preserves the binding of every other key. -/
theorem stepPreservesGet (E : ExtRegistry) (a : Attrib) (data d : Fields)
    (k : String) (hk : a.name ≠ k) (h : dictStep E a data = .ok d) :
    d.get k = data.get k := by
  obtain ⟨aName, aTy, aD⟩ := a
  have hk2 : aName ≠ k := by simpa [Attrib.name] using hk
  rw [dictStep] at h
  repeat' split at h
  all_goals
    first
      | (cases h; rfl)
      | (cases h; exact Fields.get_del_ne data aName k hk2)
      | (cases h; exact Fields.get_set_ne data aName k _ hk2)
      | cases h

/-- The reconciliation loop preserves the binding of every key that is not
a declared attribute name. -/
theorem loopPreservesGet (E : ExtRegistry) : (A : AList) →
    (data d : Fields) → (k : String) → k ∉ A.names →
    dictToAttrsLoop E A data = .ok d → d.get k = data.get k
  | .nil, data, d, k, _, h => by
      rw [dictToAttrsLoop] at h; cases h; rfl
  | .cons a rest, data, d, k, hk, h => by
      have h1 : a.name ≠ k := by
        intro hc; exact hk (by simp [AList.names, hc])
      have h2 : k ∉ rest.names := by
        intro hc; exact hk (by simp [AList.names, hc])
      rw [dictToAttrsLoop] at h
      split at h
      · rename_i data₁ hstep
        rw [loopPreservesGet E rest data₁ d k h2 h]
        exact stepPreservesGet E a data data₁ k h1 hstep
      · cases h

/-- The per-attrib reconcilability conditions only depend on the bindings
at the declared names. -/
theorem wireOkAttribs_congr (E : ExtRegistry) : (A : AList) →
    (d₁ d₂ : Fields) → (∀ nm, nm ∈ A.names → d₁.get nm = d₂.get nm) →
    wireOkAttribs E A d₁ = wireOkAttribs E A d₂
  | .nil, d₁, d₂, h => by simp [wireOkAttribs]
  | .cons (.mk aName aTy aD) rest, d₁, d₂, h => by
      rw [wireOkAttribs, wireOkAttribs,
        h aName (by simp [AList.names, Attrib.name]),
        wireOkAttribs_congr E rest d₁ d₂
          (fun nm hnm => h nm (by simp [AList.names, hnm]))]

theorem Fields.get_eq_none_of_hasKey_false (d : Fields) (k : String)
    (h : d.hasKey k = false) : d.get k = none := by
  rw [Fields.hasKey_eq_isSome] at h
  exact Option.not_isSome_iff_eq_none.mp (by simp [h])

/-- The reconciliation loop never introduces a key. -/
theorem loopSubset (E : ExtRegistry) : (A : AList) → (data d : Fields) →
    dictToAttrsLoop E A data = .ok d →
    ∀ kk, kk ∈ d.keys → kk ∈ data.keys
  | .nil, data, d, h, kk, hkk => by
      rw [dictToAttrsLoop] at h; cases h; exact hkk
  | .cons a rest, data, d, h, kk, hkk => by
      rw [dictToAttrsLoop] at h
      split at h
      · rename_i data₁ hstep
        have h₂ := loopSubset E rest data₁ d h kk hkk
        rw [← Fields.hasKey_iff_mem_keys] at h₂ ⊢
        exact stepSubset E a data data₁ hstep kk h₂
      · cases h

/-- A declared no-default attribute with no binding forces the constructor
to fail with the missing-required-field error. -/
theorem bindFieldsMissing : (A : AList) → (d : Fields) →
    (∃ a, A.mem a ∧ a.dflt = VOpt.noval ∧ d.get a.name = none) →
    bindFields A d = .error .missingRequiredField
  | .nil, d, hx => by
      obtain ⟨a, hmem, _, _⟩ := hx
      simp [AList.mem] at hmem
  | .cons b rest, d, hx => by
      obtain ⟨a, hmem, hdflt, hget⟩ := hx
      rw [AList.mem] at hmem
      rw [bindFields]
      cases hmem with
      | inl heq =>
          subst heq
          rw [hget, hdflt]
      | inr hmem =>
          have hrec := bindFieldsMissing rest d ⟨a, hmem, hdflt, hget⟩
          cases hgb : d.get b.name with
          | some v => rw [hrec]
          | none =>
              cases hdb : b.dflt with
              | val dv => rw [hrec]
              | noval => rfl

/-- One reconciliation step on a reconcilable binding either succeeds or
fails with the missing-required-field error (from a nested construction). -/
theorem stepTotal (E : ExtRegistry) (a : Attrib) (data : Fields)
    (IH : ∀ c', sizeOf c' < sizeOf a → wfCls c' = true →
      ∀ fs₂, wireOkCls E c' fs₂ = true →
      (dictToAttrs E (Value.vmap fs₂) c' = .error .missingRequiredField ∨
       ∃ r, dictToAttrs E (Value.vmap fs₂) c' = .ok r))
    (hwf : wfTy a.type = true)
    (hwire : wireOkV E a.type (data.get a.name) = true) :
    (dictStep E a data = .error .missingRequiredField ∨
     ∃ d, dictStep E a data = .ok d) := by
  obtain ⟨aName, aTy, aD⟩ := a
  simp only [Attrib.name, Attrib.type] at hwf hwire IH
  cases hs : dictStep E (Attrib.mk aName aTy aD) data with
  | ok d => exact Or.inr ⟨d, rfl⟩
  | error e =>
      left
      rw [dictStep] at hs
      split at hs
      · cases hs
      · rename_i sub hg
        rw [hg] at hwire
        split at hs
        · split at hs <;> cases hs
        · rename_i hnn
          split at hs
          · rename_i c
            split at hs
            · split at hs
              · cases hs
              · rename_i e₂ hr
                cases hs
                cases sub with
                | vnull => exact absurd rfl hnn
                | vmap fs₂ =>
                    rw [wireOkV] at hwire
                    have hsz : sizeOf c < sizeOf
                        (Attrib.mk aName (Ty.attrsC c) aD) := by
                      simp only [Attrib.mk.sizeOf_spec, Ty.attrsC.sizeOf_spec]
                      omega
                    have hwfc : wfCls c = true := by simpa [wfTy] using hwf
                    rcases IH c hsz hwfc fs₂ hwire with hmiss | ⟨r, hok⟩
                    · rw [hr] at hmiss
                      injection hmiss with hh
                      rw [hh]
                    · rw [hr] at hok; cases hok
                | vstr s => simp [wireOkV] at hwire
                | vint n => simp [wireOkV] at hwire
                | vfloat l => simp [wireOkV] at hwire
                | vbool b => simp [wireOkV] at hwire
                | vbytes bs => simp [wireOkV] at hwire
                | vinst c₂ fs₂ => simp [wireOkV] at hwire
                | vext nm p => simp [wireOkV] at hwire
            · cases hs
          · rename_i hnotAttrs
            split at hs
            · split at hs
              · cases hs
              · rename_i hKfalse
                have hKtrue : data.hasKey aName = true := by
                  rw [Fields.hasKey_eq_isSome, hg]; rfl
                exact absurd hKtrue hKfalse
            · rename_i hEnone
              split at hs
              · rename_i hcat
                cases hs
                exfalso
                cases aTy with
                | attrsC c => exact hnotAttrs c rfl
                | prim p =>
                    simp [catalogTag] at hcat
                | containerT ct =>
                    cases ct <;> simp [catalogTag] at hcat
                | ext en =>
                    cases sub with
                    | vnull => exact absurd rfl hnn
                    | _ =>
                        simp [wireOkV, hEnone, catalogTag] at hwire
              · cases hs

/-- The reconciliation loop on a reconcilable mapping either succeeds (never
adding keys) or fails with the missing-required-field error. -/
theorem loopTotal (E : ExtRegistry) (k : Nat)
    (IH : ∀ c', sizeOf c' < k → wfCls c' = true →
      ∀ fs₂, wireOkCls E c' fs₂ = true →
      (dictToAttrs E (Value.vmap fs₂) c' = .error .missingRequiredField ∨
       ∃ r, dictToAttrs E (Value.vmap fs₂) c' = .ok r)) :
    (A : AList) → (data : Fields) → sizeOf A ≤ k →
    nodupKeys A.names = true → wfAList A = true →
    wireOkAttribs E A data = true →
    (dictToAttrsLoop E A data = .error .missingRequiredField ∨
     ∃ d, dictToAttrsLoop E A data = .ok d)
  | .nil, data, _, _, _, _ => by
      exact Or.inr ⟨data, by rw [dictToAttrsLoop]⟩
  | .cons a rest, data, hsz, hnd, hwa, hwire => by
      obtain ⟨aName, aTy, aD⟩ := a
      simp only [nodupKeys, AList.names, Attrib.name, Bool.and_eq_true,
        Bool.not_eq_true'] at hnd
      simp only [wfAList, Bool.and_eq_true] at hwa
      rw [wireOkAttribs] at hwire
      rw [Bool.and_eq_true] at hwire
      have hIHa : ∀ c', sizeOf c' < sizeOf (Attrib.mk aName aTy aD) →
          wfCls c' = true → ∀ fs₂, wireOkCls E c' fs₂ = true →
          (dictToAttrs E (Value.vmap fs₂) c' = .error .missingRequiredField ∨
           ∃ r, dictToAttrs E (Value.vmap fs₂) c' = .ok r) := by
        intro c' hc'
        apply IH
        have : sizeOf (Attrib.mk aName aTy aD)
            < sizeOf (AList.cons (Attrib.mk aName aTy aD) rest) := by
          simp only [AList.cons.sizeOf_spec]; omega
        omega
      rcases stepTotal E (Attrib.mk aName aTy aD) data hIHa
          (by simpa [Attrib.type] using hwa.1)
          (by simpa [Attrib.name, Attrib.type] using hwire.1) with hm | ⟨d₁, hok⟩
      · left
        rw [dictToAttrsLoop, hm]
      · have hszr : sizeOf rest ≤ k := by
          have : sizeOf rest < sizeOf (AList.cons (Attrib.mk aName aTy aD) rest) := by
            simp only [AList.cons.sizeOf_spec]; omega
          omega
        have hmemA : aName ∉ rest.names := by
          have := hnd.1; simp at this; exact this
        have hwire₂ : wireOkAttribs E rest d₁ = true := by
          rw [wireOkAttribs_congr E rest d₁ data ?_]
          · exact hwire.2
          · intro nm hnm
            apply stepPreservesGet E (Attrib.mk aName aTy aD) data d₁ nm
            · simp only [Attrib.name]
              intro hc; rw [hc] at hmemA; exact hmemA hnm
            · exact hok
        rcases loopTotal E k IH rest d₁ hszr hnd.2 hwa.2 hwire₂ with hm | ⟨d₂, hok₂⟩
        · left
          rw [dictToAttrsLoop, hok]
          show dictToAttrsLoop E rest d₁ = _
          rw [hm]
        · refine Or.inr ⟨d₂, ?_⟩
          rw [dictToAttrsLoop, hok]
          show dictToAttrsLoop E rest d₁ = _
          rw [hok₂]

/-- Reconciliation of a reconcilable mapping either produces an instance or
fails with the missing-required-field error. -/
theorem dictTotal (E : ExtRegistry) (c : AttrsCls) :
    wfCls c = true → ∀ data, wireOkCls E c data = true →
    (dictToAttrs E (Value.vmap data) c = .error .missingRequiredField ∨
     ∃ r, dictToAttrs E (Value.vmap data) c = .ok r) := by
  have IH : ∀ c', sizeOf c' < sizeOf c → wfCls c' = true →
      ∀ fs₂, wireOkCls E c' fs₂ = true →
      (dictToAttrs E (Value.vmap fs₂) c' = .error .missingRequiredField ∨
       ∃ r, dictToAttrs E (Value.vmap fs₂) c' = .ok r) :=
    fun c' h' => dictTotal E c'
  obtain ⟨cN, cAs⟩ := c
  intro hwf data hwire
  simp only [wfCls, Bool.and_eq_true] at hwf
  rw [wireOkCls, Bool.and_eq_true] at hwire
  have hszA : sizeOf cAs ≤ sizeOf (AttrsCls.mk cN cAs) := by
    simp only [AttrsCls.mk.sizeOf_spec]; omega
  rcases loopTotal E (sizeOf (AttrsCls.mk cN cAs)) IH cAs data hszA
      hwf.1 hwf.2 hwire.2 with hm | ⟨d, hok⟩
  · left
    rw [dictToAttrs, hm]
  · have hkeys : (d.keys.all fun kk => cAs.names.contains kk) = true := by
      rw [List.all_eq_true]
      intro kk hkk
      have hmem := loopSubset E cAs data d hok kk hkk
      have := List.all_eq_true.mp hwire.1 kk hmem
      exact this
    have hred : dictToAttrs E (Value.vmap data) (AttrsCls.mk cN cAs)
        = mkInstance (AttrsCls.mk cN cAs) d := by
      rw [dictToAttrs, hok]
    rw [hred, mkInstance, if_pos hkeys]
    cases hb : bindFields cAs d with
    | ok out => exact Or.inr ⟨Value.vinst (AttrsCls.mk cN cAs) out, rfl⟩
    | error e =>
        left
        show Except.error e = _
        rw [bindFields_error cAs d e hb]
termination_by sizeOf c

/-- C7.  For every target record type with a no-default field, reconciling a
wire-value mapping (reconcilable in shape, against a well-formed target)
from which that field's key is absent fails with the missing-required-field
construction error: no native instance is produced. -/
theorem claim7_missing_required (E : ExtRegistry) (c : AttrsCls)
    (data : Fields) (hwf : wfCls c = true)
    (hwire : wireOkCls E c data = true)
    (hreq : ∃ a, c.attribs.mem a ∧ a.dflt = VOpt.noval ∧
      data.hasKey a.name = false) :
    dictToAttrs E (Value.vmap data) c = .error .missingRequiredField := by
  rcases dictTotal E c hwf data hwire with hm | ⟨r, hok⟩
  · exact hm
  · exfalso
    obtain ⟨cN, cAs⟩ := c
    rw [dictToAttrs] at hok
    split at hok
    · rename_i d hloop
      rw [mkInstance] at hok
      split at hok
      · split at hok
        · rename_i out hbind
          obtain ⟨a, haMem, haD, haK⟩ := hreq
          have hdk : d.get a.name = none := by
            apply Fields.get_eq_none_of_hasKey_false
            cases hdk2 : d.hasKey a.name with
            | false => rfl
            | true =>
                exfalso
                have h₁ := (Fields.hasKey_iff_mem_keys d a.name).mp hdk2
                have h₂ := loopSubset E cAs data d hloop a.name h₁
                rw [← Fields.hasKey_iff_mem_keys, haK] at h₂
                cases h₂
          have hmiss := bindFieldsMissing cAs d
            ⟨a, by simpa [AttrsCls.attribs] using haMem, haD, hdk⟩
          rw [hbind] at hmiss
          cases hmiss
        · cases hok
      · cases hok
    · cases hok

/-- Witness for C7: reconciling `{added_key: "x"}` against
`Req {sub_name: text, added_key: text = ...}` (required `sub_name` absent)
fails with the missing-required-field error. -/
theorem claim7_missing_required_witness :
    dictToAttrs noExts (Value.vmap (.cons "added_key" (.vstr "x") .nil)) reqCls
      = .error .missingRequiredField :=
  claim7_missing_required noExts reqCls (.cons "added_key" (.vstr "x") .nil)
    (by simp [wfCls, reqCls, nodupKeys, wfAList, wfTy, AList.names, Attrib.name])
    (by simp [wireOkCls, reqCls, wireOkAttribs, wireOkV, Fields.get,
      Fields.keys, AList.names, Attrib.name, Attrib.type, noExts, catalogTag,
      primTag, List.all])
    ⟨Attrib.mk "sub_name" (Ty.prim .str) VOpt.noval,
      by simp [reqCls, AttrsCls.attribs, AList.mem],
      rfl,
      by simp [Fields.hasKey, Attrib.name]⟩

theorem AList.mem_names : (A : AList) → (a : Attrib) → A.mem a →
    a.name ∈ A.names
  | .nil, a, h => by simp [AList.mem] at h
  | .cons b rest, a, h => by
      rw [AList.mem] at h
      rw [AList.names]
      cases h with
      | inl h => rw [h]; exact List.mem_cons_self _ _
      | inr h => exact List.mem_cons_of_mem _ (AList.mem_names rest a h)

/-- One reconciliation step keeps the keys duplicate-free. -/
theorem stepPreservesNodup (E : ExtRegistry) (a : Attrib) (data d : Fields)
    (h : dictStep E a data = .ok d) (hnd : data.keys.Nodup) :
    d.keys.Nodup := by
  obtain ⟨aName, aTy, aD⟩ := a
  rw [dictStep] at h
  repeat' split at h
  all_goals
    first
      | (cases h; exact hnd)
      | (cases h
         rw [Fields.keys_del]
         exact hnd.erase aName)
      | (cases h
         rw [Fields.keys_set data aName _ (by assumption)]
         exact hnd)
      | cases h

/-- A defaulted attribute whose incoming binding is absent or null has no
binding after the loop (the null case is deleted so the constructor default
applies). -/
theorem loopGetNone (E : ExtRegistry) : (A : AList) → (data d : Fields) →
    (a : Attrib) → A.mem a → nodupKeys A.names = true → data.keys.Nodup →
    a.dflt ≠ VOpt.noval →
    (data.get a.name = none ∨ data.get a.name = some Value.vnull) →
    dictToAttrsLoop E A data = .ok d → d.get a.name = none
  | .nil, data, d, a, hmem, _, _, _, _, _ => by simp [AList.mem] at hmem
  | .cons b rest, data, d, a, hmem, hnd, hndd, hdflt, hga, h => by
      rw [dictToAttrsLoop] at h
      split at h
      · rename_i data₁ hstep
        rw [AList.mem] at hmem
        simp only [nodupKeys, AList.names, Bool.and_eq_true,
          Bool.not_eq_true'] at hnd
        cases hmem with
        | inl heq =>
            subst heq
            have hbmem : b.name ∉ rest.names := by
              have := hnd.1; simp at this; exact this
            have hd₁ : data₁.get b.name = none := by
              obtain ⟨bN, bTy, bD⟩ := b
              simp only [Attrib.name] at hga hbmem ⊢
              simp only [Attrib.dflt] at hdflt
              rw [dictStep] at hstep
              cases hga with
              | inl hga =>
                  rw [hga] at hstep
                  cases hstep
                  exact hga
              | inr hga =>
                  rw [hga] at hstep
                  repeat' split at hstep
                  all_goals
                    first
                      | (cases hstep
                         apply Fields.get_eq_none_of_not_mem_keys
                         rw [Fields.keys_del]
                         exact hndd.not_mem_erase)
                      | (cases hstep; simp_all)
                      | simp_all
            rw [loopPreservesGet E rest data₁ d b.name hbmem h]
            exact hd₁
        | inr hmem =>
            have hba : b.name ≠ a.name := by
              intro hc
              have := hnd.1; simp at this
              rw [hc] at this
              exact this (AList.mem_names rest a hmem)
            have hget := stepPreservesGet E b data data₁ a.name hba hstep
            exact loopGetNone E rest data₁ d a hmem hnd.2
              (stepPreservesNodup E b data data₁ hstep hndd) hdflt
              (by rw [hget]; exact hga) h
      · cases h

/-- A no-default attribute whose incoming binding is null keeps the null
binding through the loop. -/
theorem loopGetKept (E : ExtRegistry) : (A : AList) → (data d : Fields) →
    (b : Attrib) → A.mem b → nodupKeys A.names = true →
    b.dflt = VOpt.noval → data.get b.name = some Value.vnull →
    dictToAttrsLoop E A data = .ok d → d.get b.name = some Value.vnull
  | .nil, data, d, b, hmem, _, _, _, _ => by simp [AList.mem] at hmem
  | .cons b₀ rest, data, d, b, hmem, hnd, hdflt, hgb, h => by
      rw [dictToAttrsLoop] at h
      split at h
      · rename_i data₁ hstep
        rw [AList.mem] at hmem
        simp only [nodupKeys, AList.names, Bool.and_eq_true,
          Bool.not_eq_true'] at hnd
        cases hmem with
        | inl heq =>
            subst heq
            have hbmem : b₀.name ∉ rest.names := by
              have := hnd.1; simp at this; exact this
            have hd₁ : data₁.get b₀.name = some Value.vnull := by
              obtain ⟨bN, bTy, bD⟩ := b₀
              simp only [Attrib.name] at hgb hbmem ⊢
              simp only [Attrib.dflt] at hdflt
              subst hdflt
              rw [dictStep, hgb] at hstep
              repeat' split at hstep
              all_goals first
                | (cases hstep; exact hgb)
                | simp_all
            rw [loopPreservesGet E rest data₁ d b₀.name hbmem h]
            exact hd₁
        | inr hmem =>
            have hba : b₀.name ≠ b.name := by
              intro hc
              have := hnd.1; simp at this
              rw [hc] at this
              exact this (AList.mem_names rest b hmem)
            have hget := stepPreservesGet E b₀ data data₁ b.name hba hstep
            exact loopGetKept E rest data₁ d b hmem hnd.2 hdflt
              (by rw [hget]; exact hgb) h
      · cases h

/-- The constructor binds a present key to its value and an absent key to
the declared default. -/
theorem bindFieldsGet : (A : AList) → (dta out : Fields) → (a : Attrib) →
    A.mem a → nodupKeys A.names = true → bindFields A dta = .ok out →
    ((∀ w, dta.get a.name = some w → out.get a.name = some w) ∧
     (∀ dv, dta.get a.name = none → a.dflt = VOpt.val dv →
       out.get a.name = some dv))
  | .nil, dta, out, a, hmem, _, _ => by simp [AList.mem] at hmem
  | .cons b rest, dta, out, a, hmem, hnd, h => by
      rw [AList.mem] at hmem
      simp only [nodupKeys, AList.names, Bool.and_eq_true,
        Bool.not_eq_true'] at hnd
      rw [bindFields] at h
      cases hmem with
      | inl heq =>
          subst heq
          cases hgb : dta.get b.name with
          | some w =>
              simp only [hgb] at h
              cases hfs : bindFields rest dta with
              | ok fs =>
                  simp only [hfs] at h
                  cases h
                  constructor
                  · intro w₂ hw₂
                    cases hw₂
                    exact Fields.get_cons_self b.name w fs
                  · intro dv hnone
                    cases hnone
              | error e =>
                  simp only [hfs] at h
                  cases h
          | none =>
              simp only [hgb] at h
              cases hdb : b.dflt with
              | val dv =>
                  simp only [hdb] at h
                  cases hfs : bindFields rest dta with
                  | ok fs =>
                      simp only [hfs] at h
                      cases h
                      constructor
                      · intro w₂ hw₂
                        cases hw₂
                      · intro dv₂ _ hdv₂
                        cases hdv₂
                        exact Fields.get_cons_self b.name dv fs
                  | error e =>
                      simp only [hfs] at h
                      cases h
              | noval =>
                  simp only [hdb] at h
                  cases h
      | inr hmem =>
          have hba : b.name ≠ a.name := by
            intro hc
            have := hnd.1; simp at this
            rw [hc] at this
            exact this (AList.mem_names rest a hmem)
          cases hgb : dta.get b.name with
          | some v =>
              simp only [hgb] at h
              cases hfs : bindFields rest dta with
              | ok fs =>
                  simp only [hfs] at h
                  cases h
                  have hrec := bindFieldsGet rest dta fs a hmem hnd.2 hfs
                  constructor
                  · intro w hw
                    rw [Fields.get_cons_ne b.name a.name v fs hba]
                    exact hrec.1 w hw
                  · intro dv hnone hdv
                    rw [Fields.get_cons_ne b.name a.name v fs hba]
                    exact hrec.2 dv hnone hdv
              | error e =>
                  simp only [hfs] at h
                  cases h
          | none =>
              simp only [hgb] at h
              cases hdb : b.dflt with
              | val dv₀ =>
                  simp only [hdb] at h
                  cases hfs : bindFields rest dta with
                  | ok fs =>
                      simp only [hfs] at h
                      cases h
                      have hrec := bindFieldsGet rest dta fs a hmem hnd.2 hfs
                      constructor
                      · intro w hw
                        rw [Fields.get_cons_ne b.name a.name dv₀ fs hba]
                        exact hrec.1 w hw
                      · intro dv hnone hdv
                        rw [Fields.get_cons_ne b.name a.name dv₀ fs hba]
                        exact hrec.2 dv hnone hdv
                  | error e =>
                      simp only [hfs] at h
                      cases h
              | noval =>
                  simp only [hdb] at h
                  cases h

/-- C8.  For every target field carrying a default, reconciling a wire
mapping in which that field is absent or bound to null yields an instance
holding the target-side default (the null binding is deleted so the
constructor default applies); and when the wire value is null and the field
declares no default, the null is passed through to the constructor
unchanged. -/
theorem claim8_defaults (E : ExtRegistry) (c : AttrsCls) (data : Fields)
    (inst : Value)
    (hnd : nodupKeys c.attribs.names = true)
    (hndd : data.keys.Nodup)
    (hok : dictToAttrs E (Value.vmap data) c = .ok inst) :
    ((∀ a dv, c.attribs.mem a → a.dflt = VOpt.val dv →
      (data.get a.name = none ∨ data.get a.name = some Value.vnull) →
      instField inst a.name = some dv) ∧
     (∀ b, c.attribs.mem b → b.dflt = VOpt.noval →
      data.get b.name = some Value.vnull →
      instField inst b.name = some Value.vnull)) := by
  obtain ⟨cN, cAs⟩ := c
  simp only [AttrsCls.attribs] at hnd ⊢
  rw [dictToAttrs] at hok
  split at hok
  · rename_i d hloop
    rw [mkInstance] at hok
    split at hok
    · split at hok
      · rename_i out hbind
        cases hok
        constructor
        · intro a dv hmem hdflt hga
          have hd := loopGetNone E cAs data d a hmem hnd hndd
            (by rw [hdflt]; simp) hga hloop
          have := (bindFieldsGet cAs d out a hmem hnd hbind).2 dv hd hdflt
          simpa [instField] using this
        · intro b hmem hdflt hgb
          have hd := loopGetKept E cAs data d b hmem hnd hdflt hgb hloop
          have := (bindFieldsGet cAs d out b hmem hnd hbind).1 Value.vnull hd
          simpa [instField] using this
      · cases hok
    · cases hok
  · cases hok

/-- Witness for C8: reconciling `{sub_name: "foo", added_key: null}` against
`Req` (where `added_key` defaults to `"default_value"`) populates the
default. -/
theorem claim8_defaults_witness :
    instField (Value.vinst reqCls
      (.cons "sub_name" (.vstr "foo")
        (.cons "added_key" (.vstr "default_value") .nil))) "added_key"
      = some (Value.vstr "default_value") :=
  (claim8_defaults noExts reqCls
    (.cons "sub_name" (.vstr "foo") (.cons "added_key" Value.vnull .nil))
    (Value.vinst reqCls
      (.cons "sub_name" (.vstr "foo")
        (.cons "added_key" (.vstr "default_value") .nil)))
    (by simp [reqCls, AttrsCls.attribs, nodupKeys, AList.names, Attrib.name])
    (by simp [Fields.keys])
    (by simp [reqCls, dictToAttrs, dictToAttrsLoop, dictStep, mkInstance,
      bindFields, Fields.get, Fields.set, Fields.del, Fields.hasKey,
      Fields.keys, AList.names, Attrib.name, Attrib.type, Attrib.dflt,
      noExts, catalogTag, primTag, AttrsCls.attribs])).1
    (Attrib.mk "added_key" (Ty.prim .str) (VOpt.val (.vstr "default_value")))
    (Value.vstr "default_value")
    (by simp [reqCls, AttrsCls.attribs, AList.mem])
    rfl
    (Or.inr (by simp [Fields.get, Attrib.name]))

/-- Counterexample to C2 as stated: reconciling
`{sub_name, course_id, extra}` against `TestData` raises the constructor's
unexpected-keyword error instead of succeeding, while the same map with the
undeclared key removed reconciles to an instance. -/
theorem claim2_counterexample :
    dictToAttrs noExts (Value.vmap
      (.cons "sub_name" (.vstr "foo")
        (.cons "course_id" (.vstr "bar")
          (.cons "extra" (.vstr "x") .nil)))) tdCls
      = .error .unexpectedKeyword ∧
    dictToAttrs noExts (Value.vmap
      (.cons "sub_name" (.vstr "foo")
        (.cons "course_id" (.vstr "bar") .nil))) tdCls
      = .ok (Value.vinst tdCls (.cons "sub_name" (.vstr "foo")
          (.cons "course_id" (.vstr "bar") .nil))) := by
  constructor
  · simp [tdCls, dictToAttrs, dictToAttrsLoop, dictStep, mkInstance,
      bindFields, Fields.get, Fields.set, Fields.del, Fields.hasKey,
      Fields.keys, AList.names, Attrib.name, Attrib.type, Attrib.dflt,
      noExts, catalogTag, primTag]
  · simp [tdCls, dictToAttrs, dictToAttrsLoop, dictStep, mkInstance,
      bindFields, Fields.get, Fields.set, Fields.del, Fields.hasKey,
      Fields.keys, AList.names, Attrib.name, Attrib.type, Attrib.dflt,
      noExts, catalogTag, primTag]

/-- C9.  The reconciliation outcome depends only on the decoded wire-value
tree and the target class: whenever the external codec decodes the same
record — with or without a writer-side schema, and even under two different
codecs — `deserialize` returns the same result, because the writer schema is
consumed only by the codec and never by the type-directed reconciliation. -/
theorem claim9_writer_schema_independent (E : ExtRegistry)
    (codec₁ codec₂ : Option Schema → Fields) (c : AttrsCls)
    (ws₁ ws₂ : Option Schema)
    (h : codec₁ ws₁ = codec₂ ws₂) :
    deserialize E codec₁ c ws₁ = deserialize E codec₂ c ws₂ := by
  rw [deserialize, deserialize, h]

/-- Witness for C9 at a concrete codec: decoding with no writer schema and
with a writer schema supplied gives the same reconciliation result. -/
theorem claim9_writer_schema_independent_witness :
    ((fun _ : Option Schema =>
        Fields.cons "data" (Value.vmap Fields.nil) Fields.nil)
          (none : Option Schema)
      = (fun _ : Option Schema =>
          Fields.cons "data" (Value.vmap Fields.nil) Fields.nil)
          (some (Schema.tag "int"))) ∧
    deserialize noExts
        (fun _ => Fields.cons "data" (Value.vmap Fields.nil) Fields.nil)
        tdCls (none : Option Schema)
      = deserialize noExts
          (fun _ => Fields.cons "data" (Value.vmap Fields.nil) Fields.nil)
          tdCls (some (Schema.tag "int")) :=
  ⟨rfl,
    claim9_writer_schema_independent noExts
      (fun _ => Fields.cons "data" (Value.vmap Fields.nil) Fields.nil)
      (fun _ => Fields.cons "data" (Value.vmap Fields.nil) Fields.nil)
      tdCls none (some (Schema.tag "int")) rfl⟩

end AvroBridge
